import Mathlib

set_option maxHeartbeats 1600000

/-!
Verification of the EHR data-processing pipeline in `data_processing_EHR_FM.ipynb`.

The notebook turns three flat tables — a patient-event table
(`person_id`, `concept_id`, `event_date`), an index-date table
(`person_id`, index date) and an outcome-event table
(`person_id`, `first_mace_date`, possibly absent) — into fixed-length
tokenized sequences, binary outcome labels and a person-id-to-row-index
mapping, plus a separate mortality-label pass.

Embedding conventions:
* Dates are integer day counts (the notebook's datetimes are date-valued, and
  all date arithmetic in it reduces to whole-day differences; `timedelta.days`
  and `total_seconds()/86400` agree on date-valued data).  Elapsed-day values
  are exact in the notebook's `float32` arrays at realistic magnitudes, so they
  are modelled as `Int`.
* Person ids and concept ids are `Int` (`concept_id` is cast to an integer type
  by the notebook before use).
* A nullable date column is `Option Int`; pandas `NaT`/`NaN` is `none`.
* The Python vocabulary dict maps strings — either a stringified integer
  concept code or one of the four bracketed structural markers.  A stringified
  integer never equals a bracketed marker, so the string key space is modelled
  as the sum type `VKey`, and the dict (whose keys are distinct by
  construction) as an association list with first-match lookup.
* `MAX_SEQ_LENGTH` is a module-level constant (1024) in the notebook; the
  functions here take the maximum length `M` as an explicit parameter so that
  the statements cover the configured value, and `MAX_SEQ_LENGTH = 1024` is
  used wherever a claim is about the notebook's own constant.
-/

/-- One row of the patient-event table: `person_id`, `concept_id`, `event_date`. -/
structure EventRow where
  person_id : Int
  concept_id : Int
  event_date : Int
deriving DecidableEq, Repr

/-- Keys of the vocabulary dict: the four structural markers `'[PAD]'`,
`'[CLS]'`, `'[SEP]'`, `'[DAY]'` and the stringified integer concept codes. -/
inductive VKey where
  | pad
  | cls
  | sep
  | day
  | code (c : Int)
deriving DecidableEq, Repr

/-- Python dict lookup (`vocab.get`) on an association list whose keys are
distinct by construction: first match wins. -/
def vlookup : List (VKey × Nat) → VKey → Option Nat
  | [], _ => none
  | e :: rest, k => if e.1 = k then some e.2 else vlookup rest k

/-- The left merge of `calculate_mace_outcomes`:
`pd.merge(antihypertensive_starts[['person_id', index_col]],
mace_data[['person_id', 'first_mace_date']], on='person_id', how='left')`.
Each left row is paired with every matching right row (in right-table order);
a left row with no match gets a missing (`none`) outcome date. -/
def leftJoinMace (starts : List (Int × Int)) (mace : List (Int × Option Int)) :
    List (Int × Int × Option Int) :=
  starts.flatMap fun s =>
    let ms := mace.filter fun m => decide (m.1 = s.1)
    if ms.isEmpty then [(s.1, s.2, none)] else ms.map fun m => (s.1, s.2, m.2)

/-- `days_to_mace` for one merged row: zero-initialised, overwritten with
`(first_mace_date - index_date).days` exactly when the outcome date is
present. -/
def maceDays (indexDate : Int) (maceDate : Option Int) : Int :=
  match maceDate with
  | none => 0
  | some d => d - indexDate

/-- `mace_12m = np.logical_and(days_to_mace >= 7, days_to_mace <= 365)` cast to
an integer label. -/
def maceLabel (indexDate : Int) (maceDate : Option Int) : Int :=
  if 7 ≤ maceDays indexDate maceDate ∧ maceDays indexDate maceDate ≤ 365 then 1 else 0

/-- `calculate_mace_outcomes`: left-join the outcome dates onto the index-date
table and emit `(person_id, mace_12m)` per merged row. -/
def calculate_mace_outcomes (starts : List (Int × Int)) (mace : List (Int × Option Int)) :
    List (Int × Int) :=
  (leftJoinMace starts mace).map fun r => (r.1, maceLabel r.2.1 r.2.2)

/-- First outcome-table entry for a person id, used to state theorems:
`some v` when the person has a row (with nullable date `v`), `none` when the
person is absent from the outcome table. -/
def findOutcome : List (Int × Option Int) → Int → Option (Option Int)
  | [], _ => none
  | m :: rest, p => if m.1 = p then some m.2 else findOutcome rest p

/-- `np.unique` over the concept-code column: the distinct codes in ascending
numeric order. -/
def sortedUnique (codes : List Int) : List Int :=
  codes.dedup.insertionSort fun a b => a ≤ b

/-- The four reserved structural entries `{'[PAD]': 0, '[CLS]': 1, '[SEP]': 2,
'[DAY]': 3}`. -/
def reservedVocab : List (VKey × Nat) :=
  [(VKey.pad, 0), (VKey.cls, 1), (VKey.sep, 2), (VKey.day, 3)]

/-- `create_vocabulary`: each distinct code (ascending) gets id `index + 4`,
and the four reserved entries are overlaid (their keys are disjoint from the
code keys, so the dict is this association list). -/
def create_vocabulary (codes : List Int) : List (VKey × Nat) :=
  ((sortedUnique codes).enum.map fun ic => (VKey.code ic.2, ic.1 + 4)) ++ reservedVocab

/-- The token-emission loop of `tokenize_patient_data`, one step per
`(date, concept_id)` pair of `zip(dates_array, events_array)`, carrying
`current_date` (initially `None`); the trailing `'[SEP]'` is appended when the
pairs run out. -/
def tokLoop : List (Int × Int) → Option Int → List VKey
  | [], _ => [VKey.sep]
  | (d, c) :: rest, cur =>
      (if cur = some d then [] else (if cur = none then [] else [VKey.sep]) ++ [VKey.day]) ++
        VKey.code c :: tokLoop rest (some d)

/-- The full (untruncated) token-string list of `tokenize_patient_data`:
`'[CLS]'` followed by the loop output. -/
def tokenize_strings (pairs : List (Int × Int)) : List VKey :=
  VKey.cls :: tokLoop pairs none

/-- `vocab.get(token, vocab['[PAD]'])`.  For vocabularies produced by
`create_vocabulary` the `'[PAD]'` entry is present with value 0. -/
def vocabGet (vocab : List (VKey × Nat)) (t : VKey) : Nat :=
  (vlookup vocab t).getD ((vlookup vocab VKey.pad).getD 0)

/-- Python `l[-n:]` for `n ≥ 1` (and `l[-n:]` with `n ≥ len(l)` is all of `l`):
the suffix of length `min n (length l)`. -/
def lastN {α : Type*} (n : Nat) (l : List α) : List α := l.drop (l.length - n)

/-- The untruncated token-id list: every token string mapped through the
vocabulary with `'[PAD]'` fallback. -/
def untruncated_token_ids (events dates : List Int) (vocab : List (VKey × Nat)) : List Nat :=
  (tokenize_strings (dates.zip events)).map (vocabGet vocab)

/-- `tokenize_patient_data`: token ids of one patient's parallel
(codes, dates) arrays, truncated to the last `M` entries
(`[-MAX_SEQ_LENGTH:]`). -/
def tokenize_patient_data (M : Nat) (events dates : List Int) (vocab : List (VKey × Nat)) :
    List Nat :=
  lastN M (untruncated_token_ids events dates vocab)

/-- Projection used to state which tokens of a sequence are concept-code
tokens. -/
def codeOf : VKey → Option Int
  | VKey.code c => some c
  | _ => none

/-- Number of loop steps at which `date != current_date` fires, starting from
carry `cur`; used to state the day-boundary counting lemmas. -/
def countNewDates : List (Int × Int) → Option Int → Nat
  | [], _ => 0
  | (d, _) :: rest, cur => (if cur = some d then 0 else 1) + countNewDates rest (some d)

/-- The notebook's module-level constant. -/
def MAX_SEQ_LENGTH : Nat := 1024

/-- The comparison implemented by
`data.sort_values(['person_id', 'event_date'])`: lexicographic on
(person id, event date). -/
def eventLE (r s : EventRow) : Prop :=
  r.person_id < s.person_id ∨ (r.person_id = s.person_id ∧ r.event_date ≤ s.event_date)

instance : DecidableRel eventLE := fun r s => by
  unfold eventLE
  infer_instance

/-- The pre-sort of the event table (pandas multi-column `sort_values` is a
stable lexicographic sort). -/
def sortEvents (data : List EventRow) : List EventRow := data.insertionSort eventLE

/-- One event row's contribution to
`data.merge(mace_outcomes_df, on='person_id', how='left')`: the row paired
with every matching label row (in label-table order), or with a missing
(`NaN`, here `none`) label when the patient has no label row. -/
def joinRow (labels : List (Int × Int)) (r : EventRow) : List (EventRow × Option Int) :=
  let ms := labels.filter fun m => decide (m.1 = r.person_id)
  if ms.isEmpty then [(r, none)] else ms.map fun m => (r, some m.2)

/-- The sorted event table left-joined with the computed labels (a left merge
preserves left-row order and expands each row by its matches). -/
def mergedOf (data : List EventRow) (starts : List (Int × Int))
    (mace : List (Int × Option Int)) : List (EventRow × Option Int) :=
  (sortEvents data).flatMap (joinRow (calculate_mace_outcomes starts mace))

/-- The group keys of `data.groupby('person_id')`: distinct person ids in
ascending order. -/
def pidsOf (merged : List (EventRow × Option Int)) : List Int :=
  sortedUnique (merged.map fun rl => rl.1.person_id)

/-- One `groupby` group: the merged rows of one patient, in table order. -/
def groupRows (merged : List (EventRow × Option Int)) (p : Int) :
    List (EventRow × Option Int) :=
  merged.filter fun rl => decide (rl.1.person_id = p)

/-- `group['concept_id'].values` for one patient. -/
def groupCodes (merged : List (EventRow × Option Int)) (p : Int) : List Int :=
  (groupRows merged p).map fun rl => rl.1.concept_id

/-- `group['event_date'].values` for one patient. -/
def groupDates (merged : List (EventRow × Option Int)) (p : Int) : List Int :=
  (groupRows merged p).map fun rl => rl.1.event_date

/-- `group['mace_12m'].iloc[0]` for one patient: the (possibly missing) label
on the first row of the group. -/
def groupLabel (merged : List (EventRow × Option Int)) (p : Int) : Option Int :=
  (groupRows merged p).head?.bind Prod.snd

/-- The token-matrix row written for one patient:
`padded_sequences[i, :seq_len] = tokens[:seq_len]` into a zero-initialised row
of width `M`, with `seq_len = min(len(tokens), M)`. -/
def rowOf (M : Nat) (merged : List (EventRow × Option Int)) (vocab : List (VKey × Nat))
    (p : Int) : List Nat :=
  let tokens := tokenize_patient_data M (groupCodes merged p) (groupDates merged p) vocab
  let seqLen := min tokens.length M
  tokens.take seqLen ++ List.replicate (M - seqLen) 0

/-- `len(tokenize_patient_data(events, dates, vocab))` for one patient (the
post-truncation count — truncation happens inside the tokenizer). -/
def tokLenOf (M : Nat) (merged : List (EventRow × Option Int)) (vocab : List (VKey × Nat))
    (p : Int) : Nat :=
  (tokenize_patient_data M (groupCodes merged p) (groupDates merged p) vocab).length

/-- One entry of the persisted valid-length array:
`min(len(tokenize_patient_data(events, dates, vocab)), MAX_SEQ_LENGTH)`. -/
def lenOf (M : Nat) (merged : List (EventRow × Option Int)) (vocab : List (VKey × Nat))
    (p : Int) : Nat :=
  min (tokLenOf M merged vocab p) M

/-- The artifacts assembled by one `process_patient_data` invocation. -/
structure ProcResult where
  padded_sequences : List (List Nat)
  mace_outcomes : List (Option Int)
  input_lengths : List Nat
  sample_ids : List Int
  sample_id_to_index : List (Int × Nat)
  vocab : List (VKey × Nat)
  max_seq_length : Nat
deriving DecidableEq, Repr

/-- `process_patient_data`: compute labels, sort, build the vocabulary,
left-join labels onto events, group by person id, and fill the preallocated
arrays row by row over the enumerated groups.  The `mace_outcomes` array is a
`float32` numpy array, so a group whose first row carries a missing label
writes `NaN` (`none`); present labels write their integer value. -/
def process_patient_data (M : Nat) (data : List EventRow) (starts : List (Int × Int))
    (mace : List (Int × Option Int)) : ProcResult :=
  let merged := mergedOf data starts mace
  let vocab := create_vocabulary ((sortEvents data).map fun r => r.concept_id)
  let pids := pidsOf merged
  let n := pids.length
  { padded_sequences :=
      pids.enum.foldl (fun acc ip => acc.set ip.1 (rowOf M merged vocab ip.2))
        (List.replicate n (List.replicate M 0))
    mace_outcomes :=
      pids.enum.foldl (fun acc ip => acc.set ip.1 (groupLabel merged ip.2))
        (List.replicate n (some 0))
    input_lengths := pids.map fun p => lenOf M merged vocab p
    sample_ids :=
      pids.enum.foldl (fun acc ip => acc.set ip.1 ip.2) (List.replicate n 0)
    sample_id_to_index := pids.enum.map fun ip => (ip.2, ip.1)
    vocab := vocab
    max_seq_length := pids.foldl (fun m p => max m (tokLenOf M merged vocab p)) 0 }

/-- One row of the death table: `person_id`, `first_exposure_date`,
`death_date` (nullable). -/
structure DeathRow where
  person_id : Int
  first_exposure_date : Int
  death_date : Option Int
deriving DecidableEq, Repr

/-- `death_12m` for one death-table row: elapsed days in `[0, 365]` with the
death date present; a missing death date makes both `NaN` comparisons false,
hence label 0. -/
def death_12m (r : DeathRow) : Int :=
  match r.death_date with
  | none => 0
  | some dd =>
      if 0 ≤ dd - r.first_exposure_date ∧ dd - r.first_exposure_date ≤ 365 then 1 else 0

/-- `death_dict.get(person_id, 0)` where
`death_dict = dict(zip(deaths['person_id'], deaths['death_12m']))`: on
duplicate person ids the later table row wins, absent person ids give 0. -/
def death_dict_get (deaths : List DeathRow) (p : Int) : Int :=
  match deaths.reverse.find? fun r => decide (r.person_id = p) with
  | none => 0
  | some r => death_12m r

/-- The mortality-alignment loop: a zero-initialised array of the mapping's
size, then `death_outcomes[idx] = death_dict.get(person_id, 0)` for every
`(person_id, idx)` of the mapping. -/
def mortality_align (deaths : List DeathRow) (mapping : List (Int × Nat)) : List Int :=
  mapping.foldl (fun acc pi => acc.set pi.2 (death_dict_get deaths pi.1))
    (List.replicate mapping.length 0)

/-- `pairs` with every element repeated `k` consecutive times — the shape of a
patient's (date, code) pairs after the event table is left-joined with `k`
label rows for that patient. -/
def expandK (k : Nat) (pairs : List (Int × Int)) : List (Int × Int) :=
  pairs.flatMap fun pr => List.replicate k pr

/-- `k`-fold replication of every concept-code token of a token list, leaving
the structural tokens untouched — the shape a patient's token stream takes
when each of their event rows is replicated `k` consecutive times by the
label join. -/
def expandCodes (k : Nat) : List VKey → List VKey
  | [] => []
  | VKey.code c :: rest => List.replicate k (VKey.code c) ++ expandCodes k rest
  | VKey.pad :: rest => VKey.pad :: expandCodes k rest
  | VKey.cls :: rest => VKey.cls :: expandCodes k rest
  | VKey.sep :: rest => VKey.sep :: expandCodes k rest
  | VKey.day :: rest => VKey.day :: expandCodes k rest

/-- Event table used to exercise truncation at the notebook's own
`MAX_SEQ_LENGTH`: one patient, `n` events on a single day. -/
def cexData (n : Nat) : List EventRow :=
  (List.range n).map fun j => { person_id := 1, concept_id := Int.ofNat j, event_date := 0 }

/-! ### Association-list and labeler lemmas -/

theorem vlookup_append (l₁ l₂ : List (VKey × Nat)) (k : VKey) :
    vlookup (l₁ ++ l₂) k = (vlookup l₁ k).orElse fun _ => vlookup l₂ k := by
  induction l₁ with
  | nil => simp [vlookup]
  | cons e rest ih =>
      by_cases h : e.1 = k
      · simp [vlookup, h]
      · simp [vlookup, h, ih]

theorem vlookup_eq_none (l : List (VKey × Nat)) (k : VKey) (h : ∀ e ∈ l, e.1 ≠ k) :
    vlookup l k = none := by
  induction l with
  | nil => rfl
  | cons e rest ih =>
      have he : e.1 ≠ k := h e (by simp)
      simp only [vlookup, if_neg he]
      exact ih fun x hx => h x (by simp [hx])

theorem filter_of_nodup_fst (mace : List (Int × Option Int)) (p : Int)
    (hnd : (mace.map Prod.fst).Nodup) :
    mace.filter (fun m => decide (m.1 = p)) =
      match findOutcome mace p with
      | none => []
      | some v => [(p, v)] := by
  induction mace with
  | nil => rfl
  | cons m rest ih =>
      simp only [List.map_cons, List.nodup_cons] at hnd
      by_cases hmp : m.1 = p
      · subst hmp
        have hrest : rest.filter (fun x => decide (x.1 = m.1)) = [] := by
          refine List.filter_eq_nil_iff.mpr fun x hx => ?_
          simp only [decide_eq_true_eq]
          intro hxp
          exact hnd.1 (hxp ▸ List.mem_map_of_mem Prod.fst hx)
        simp [List.filter_cons, hrest, findOutcome]
      · simpa [List.filter_cons, hmp, findOutcome] using ih hnd.2

theorem calculate_mace_outcomes_cons (s : Int × Int) (rest : List (Int × Int))
    (mace : List (Int × Option Int)) :
    calculate_mace_outcomes (s :: rest) mace =
      ((if (mace.filter fun m => decide (m.1 = s.1)).isEmpty then [(s.1, s.2, none)]
        else (mace.filter fun m => decide (m.1 = s.1)).map fun m => (s.1, s.2, m.2)).map
          fun r => (r.1, maceLabel r.2.1 r.2.2)) ++ calculate_mace_outcomes rest mace := by
  simp [calculate_mace_outcomes, leftJoinMace, List.flatMap_cons]

theorem calculate_mace_outcomes_char (starts : List (Int × Int))
    (mace : List (Int × Option Int)) (hnd : (mace.map Prod.fst).Nodup) :
    calculate_mace_outcomes starts mace =
      starts.map fun s => (s.1, maceLabel s.2 ((findOutcome mace s.1).getD none)) := by
  induction starts with
  | nil => rfl
  | cons s rest ih =>
      rw [calculate_mace_outcomes_cons, ih, filter_of_nodup_fst mace s.1 hnd, List.map_cons]
      cases h : findOutcome mace s.1 <;> simp

/-- C2: for every row of the index-date table (with the outcome table holding
at most one row per patient), `calculate_mace_outcomes` with the default
window `[7, 365]` emits exactly one binary label, row `i` of the output
labeling row `i` of the input; the label is 1 exactly when the patient's
outcome date is present and the elapsed days lie in `[7, 365]` inclusive, and
an absent outcome date always gives 0 — so elapsed days 7 and 365 give 1,
while 6 and 366 give 0. -/
theorem outcome_labeler_spec (starts : List (Int × Int)) (mace : List (Int × Option Int))
    (hnd : (mace.map Prod.fst).Nodup) :
    (calculate_mace_outcomes starts mace).length = starts.length ∧
    (∀ i : Nat, (calculate_mace_outcomes starts mace)[i]? =
      starts[i]?.map fun s => (s.1, maceLabel s.2 ((findOutcome mace s.1).getD none))) ∧
    (∀ idx d : Int, (maceLabel idx (some d) = 1 ↔ 7 ≤ d - idx ∧ d - idx ≤ 365) ∧
      (maceLabel idx (some d) = 0 ↔ ¬(7 ≤ d - idx ∧ d - idx ≤ 365))) ∧
    (∀ idx : Int, maceLabel idx none = 0) := by
  refine ⟨?_, ?_, ?_, ?_⟩
  · rw [calculate_mace_outcomes_char starts mace hnd]
    simp
  · intro i
    rw [calculate_mace_outcomes_char starts mace hnd]
    exact List.getElem?_map _ _ _
  · intro idx d
    by_cases h : 7 ≤ d - idx ∧ d - idx ≤ 365 <;> simp [maceLabel, maceDays, h]
  · intro idx
    norm_num [maceLabel, maceDays]

/-- Witness for C2 at the boundary inputs: one patient each with elapsed days
7, 6, 365, 366, and one with no outcome row. -/
theorem outcome_labeler_spec_witness :
    (([((1 : Int), some (107 : Int)), (2, some 106), (3, some 465), (4, some 466)].map
        Prod.fst).Nodup) ∧
    (calculate_mace_outcomes [((1 : Int), (100 : Int)), (2, 100), (3, 100), (4, 100), (5, 100)]
        [((1 : Int), some (107 : Int)), (2, some 106), (3, some 465), (4, some 466)])[0]? =
      some (1, 1) ∧
    (calculate_mace_outcomes [((1 : Int), (100 : Int)), (2, 100), (3, 100), (4, 100), (5, 100)]
        [((1 : Int), some (107 : Int)), (2, some 106), (3, some 465), (4, some 466)])[1]? =
      some (2, 0) ∧
    (calculate_mace_outcomes [((1 : Int), (100 : Int)), (2, 100), (3, 100), (4, 100), (5, 100)]
        [((1 : Int), some (107 : Int)), (2, some 106), (3, some 465), (4, some 466)])[2]? =
      some (3, 1) ∧
    (calculate_mace_outcomes [((1 : Int), (100 : Int)), (2, 100), (3, 100), (4, 100), (5, 100)]
        [((1 : Int), some (107 : Int)), (2, some 106), (3, some 465), (4, some 466)])[3]? =
      some (4, 0) ∧
    (calculate_mace_outcomes [((1 : Int), (100 : Int)), (2, 100), (3, 100), (4, 100), (5, 100)]
        [((1 : Int), some (107 : Int)), (2, some 106), (3, some 465), (4, some 466)])[4]? =
      some (5, 0) := by
  have h := outcome_labeler_spec
    [((1 : Int), (100 : Int)), (2, 100), (3, 100), (4, 100), (5, 100)]
    [((1 : Int), some (107 : Int)), (2, some 106), (3, some 465), (4, some 466)] (by decide)
  refine ⟨by decide, ?_, ?_, ?_, ?_, ?_⟩ <;>
    · rw [h.2.1]
      decide

/-! ### Vocabulary-builder lemmas -/

theorem vlookup_codes_part (codes : List Int) (k : VKey) (hk : ∀ c : Int, k ≠ VKey.code c) :
    vlookup ((sortedUnique codes).enum.map fun ic => (VKey.code ic.2, ic.1 + 4)) k = none := by
  refine vlookup_eq_none _ _ fun e he => ?_
  obtain ⟨ic, -, rfl⟩ := List.mem_map.mp he
  exact fun h => hk ic.2 h.symm

theorem sortedUnique_perm_dedup (codes : List Int) : (sortedUnique codes).Perm codes.dedup :=
  List.perm_insertionSort _ _

theorem sortedUnique_nodup (codes : List Int) : (sortedUnique codes).Nodup :=
  (sortedUnique_perm_dedup codes).nodup_iff.mpr (List.nodup_dedup codes)

theorem sortedUnique_sorted_le (codes : List Int) :
    List.Sorted (fun a b : Int => a ≤ b) (sortedUnique codes) :=
  List.sorted_insertionSort _ _

theorem sortedUnique_sorted_lt (codes : List Int) :
    List.Sorted (fun a b : Int => a < b) (sortedUnique codes) :=
  (sortedUnique_sorted_le codes).lt_of_le (sortedUnique_nodup codes)

theorem sortedUnique_mem (codes : List Int) (c : Int) : c ∈ sortedUnique codes ↔ c ∈ codes := by
  rw [(sortedUnique_perm_dedup codes).mem_iff, List.mem_dedup]

theorem sortedUnique_length (codes : List Int) :
    (sortedUnique codes).length = codes.toFinset.card := by
  rw [(sortedUnique_perm_dedup codes).length_eq, List.card_toFinset]

theorem sortedUnique_eq_of_toFinset (codes codes₂ : List Int)
    (h : codes.toFinset = codes₂.toFinset) : sortedUnique codes = sortedUnique codes₂ := by
  have hperm : codes.dedup.Perm codes₂.dedup := List.toFinset_eq_iff_perm_dedup.mp h
  exact List.eq_of_perm_of_sorted
    ((sortedUnique_perm_dedup codes).trans (hperm.trans (sortedUnique_perm_dedup codes₂).symm))
    (sortedUnique_sorted_le codes) (sortedUnique_sorted_le codes₂)

theorem create_vocabulary_keys (codes : List Int) :
    (create_vocabulary codes).map Prod.fst =
      (sortedUnique codes).map VKey.code ++ [VKey.pad, VKey.cls, VKey.sep, VKey.day] := by
  simp only [create_vocabulary, reservedVocab, List.map_append, List.map_map]
  congr 1
  rw [show ((fun e : VKey × Nat => e.1) ∘ fun ic : Nat × Int => (VKey.code ic.2, ic.1 + 4)) =
      (VKey.code ∘ Prod.snd) from rfl]
  rw [← List.map_map, List.enum_map_snd]

theorem create_vocabulary_values (codes : List Int) :
    (create_vocabulary codes).map Prod.snd =
      List.range' 4 codes.toFinset.card ++ [0, 1, 2, 3] := by
  simp only [create_vocabulary, reservedVocab, List.map_append, List.map_map]
  congr 1
  rw [show ((fun e : VKey × Nat => e.2) ∘ fun ic : Nat × Int => (VKey.code ic.2, ic.1 + 4)) =
      ((fun i => i + 4) ∘ Prod.fst) from rfl]
  rw [← List.map_map, List.enum_map_fst, List.range'_eq_map_range]
  rw [sortedUnique_length codes]
  exact List.map_congr_left fun x _ => Nat.add_comm x 4

/-- C5: `create_vocabulary` maps the four reserved markers to ids 0-3; the
remaining entries are exactly the distinct concept codes in ascending order
with values exactly `4, 5, ..., 3 + k` for the `k` distinct codes; any two
tables with the same code set yield the identical mapping; and an empty table
yields only the four reserved entries. -/
theorem vocabulary_builder_spec (codes : List Int) :
    (vlookup (create_vocabulary codes) VKey.pad = some 0 ∧
      vlookup (create_vocabulary codes) VKey.cls = some 1 ∧
      vlookup (create_vocabulary codes) VKey.sep = some 2 ∧
      vlookup (create_vocabulary codes) VKey.day = some 3) ∧
    (create_vocabulary codes).map Prod.fst =
      (sortedUnique codes).map VKey.code ++ [VKey.pad, VKey.cls, VKey.sep, VKey.day] ∧
    (create_vocabulary codes).map Prod.snd =
      List.range' 4 codes.toFinset.card ++ [0, 1, 2, 3] ∧
    List.Sorted (fun a b => a < b) (sortedUnique codes) ∧
    (∀ c : Int, c ∈ sortedUnique codes ↔ c ∈ codes) ∧
    (∀ codes₂ : List Int, codes.toFinset = codes₂.toFinset →
      create_vocabulary codes = create_vocabulary codes₂) ∧
    create_vocabulary [] = reservedVocab := by
  refine ⟨⟨?_, ?_, ?_, ?_⟩, create_vocabulary_keys codes, create_vocabulary_values codes,
    ?_, ?_, ?_, ?_⟩
  · rw [create_vocabulary, vlookup_append, vlookup_codes_part codes _ fun c h => by cases h]
    decide
  · rw [create_vocabulary, vlookup_append, vlookup_codes_part codes _ fun c h => by cases h]
    decide
  · rw [create_vocabulary, vlookup_append, vlookup_codes_part codes _ fun c h => by cases h]
    decide
  · rw [create_vocabulary, vlookup_append, vlookup_codes_part codes _ fun c h => by cases h]
    decide
  · exact sortedUnique_sorted_lt codes
  · exact sortedUnique_mem codes
  · intro codes₂ h
    simp only [create_vocabulary, sortedUnique_eq_of_toFinset codes codes₂ h]
  · decide

/-- Witness for C5: the determinism conjunct applied to two tables with the
same code set. -/
theorem vocabulary_builder_spec_witness :
    ([(5 : Int), 3, 5].toFinset = [(3 : Int), 5, 3].toFinset) ∧
    create_vocabulary [(5 : Int), 3, 5] = create_vocabulary [(3 : Int), 5, 3] :=
  ⟨by decide, (vocabulary_builder_spec [(5 : Int), 3, 5]).2.2.2.2.2.1 [(3 : Int), 5, 3]
    (by decide)⟩

/-! ### Tokenizer lemmas -/

theorem tokLoop_ne_nil (pairs : List (Int × Int)) (cur : Option Int) : tokLoop pairs cur ≠ [] := by
  cases pairs with
  | nil => simp [tokLoop]
  | cons pr rest =>
      obtain ⟨d, c⟩ := pr
      simp [tokLoop]

theorem tokLoop_getLast (pairs : List (Int × Int)) (cur : Option Int) :
    (tokLoop pairs cur).getLast? = some VKey.sep := by
  induction pairs generalizing cur with
  | nil => rfl
  | cons pr rest ih =>
      obtain ⟨d, c⟩ := pr
      show ((if cur = some d then [] else (if cur = none then [] else [VKey.sep]) ++ [VKey.day]) ++
        VKey.code c :: tokLoop rest (some d)).getLast? = some VKey.sep
      rw [List.getLast?_append]
      rw [show VKey.code c :: tokLoop rest (some d) = [VKey.code c] ++ tokLoop rest (some d)
        from rfl]
      rw [List.getLast?_append, ih (some d)]
      rfl

theorem tokLoop_count_day (pairs : List (Int × Int)) (cur : Option Int) :
    (tokLoop pairs cur).count VKey.day = countNewDates pairs cur := by
  induction pairs generalizing cur with
  | nil => rfl
  | cons pr rest ih =>
      obtain ⟨d, c⟩ := pr
      by_cases h : cur = some d
      · simp [tokLoop, countNewDates, h, List.count_cons, ih]
      · by_cases h2 : cur = none <;>
          simp [tokLoop, countNewDates, h, h2, List.count_cons, List.count_append, ih] <;>
          omega

theorem tokLoop_count_sep (pairs : List (Int × Int)) (d0 : Int) :
    (tokLoop pairs (some d0)).count VKey.sep = countNewDates pairs (some d0) + 1 := by
  induction pairs generalizing d0 with
  | nil => rfl
  | cons pr rest ih =>
      obtain ⟨d, c⟩ := pr
      by_cases h : d0 = d
      · simp [tokLoop, countNewDates, h, List.count_cons, ih d]
      · have h2 : (some d0 = some d) = False := by simp [h]
        simp [tokLoop, countNewDates, h2, List.count_cons, List.count_append, ih d]
        omega

theorem tokLoop_filterMap_code (pairs : List (Int × Int)) (cur : Option Int) :
    (tokLoop pairs cur).filterMap codeOf = pairs.map Prod.snd := by
  induction pairs generalizing cur with
  | nil => rfl
  | cons pr rest ih =>
      obtain ⟨d, c⟩ := pr
      by_cases h : cur = some d
      · simp [tokLoop, h, List.filterMap_cons, codeOf, ih]
      · by_cases h2 : cur = none <;>
          simp [tokLoop, h, h2, List.filterMap_append, List.filterMap_cons, codeOf, ih]

theorem tokenize_strings_head (pairs : List (Int × Int)) :
    (tokenize_strings pairs).head? = some VKey.cls := rfl

theorem tokenize_strings_getLast (pairs : List (Int × Int)) :
    (tokenize_strings pairs).getLast? = some VKey.sep := by
  show (VKey.cls :: tokLoop pairs none).getLast? = some VKey.sep
  rw [show VKey.cls :: tokLoop pairs none = [VKey.cls] ++ tokLoop pairs none from rfl,
    List.getLast?_append, tokLoop_getLast]
  rfl

theorem tokenize_strings_count_day (pairs : List (Int × Int)) :
    (tokenize_strings pairs).count VKey.day = countNewDates pairs none := by
  simp [tokenize_strings, List.count_cons, tokLoop_count_day]

theorem tokenize_strings_count_sep (pairs : List (Int × Int)) (hne : pairs ≠ []) :
    (tokenize_strings pairs).count VKey.sep = countNewDates pairs none := by
  cases pairs with
  | nil => exact absurd rfl hne
  | cons pr rest =>
      obtain ⟨d, c⟩ := pr
      simp [tokenize_strings, tokLoop, countNewDates, List.count_cons, List.count_append,
        tokLoop_count_sep rest d]
      omega

theorem tokenize_strings_filterMap (pairs : List (Int × Int)) :
    (tokenize_strings pairs).filterMap codeOf = pairs.map Prod.snd := by
  simp [tokenize_strings, List.filterMap_cons, codeOf, tokLoop_filterMap_code]

theorem dedup_cons_length_pos {x : Int} {l : List Int} : 0 < (x :: l).dedup.length := by
  rw [List.length_pos]
  intro h
  have hx : x ∈ (x :: l).dedup := List.mem_dedup.mpr (by simp)
  rw [h] at hx
  exact List.not_mem_nil x hx

theorem countNewDates_sorted_some (pairs : List (Int × Int)) (d : Int)
    (hs : List.Sorted (fun a b : Int => a ≤ b) (d :: pairs.map Prod.fst)) :
    countNewDates pairs (some d) = (d :: pairs.map Prod.fst).dedup.length - 1 := by
  induction pairs generalizing d with
  | nil => simp [countNewDates]
  | cons pr rest ih =>
      obtain ⟨d2, c⟩ := pr
      simp only [List.map_cons] at hs ⊢
      have hs2 : List.Sorted (fun a b : Int => a ≤ b) (d2 :: rest.map Prod.fst) := hs.tail
      by_cases h : d = d2
      · subst h
        have hmem : d ∈ d :: rest.map Prod.fst := by simp
        rw [List.dedup_cons_of_mem hmem]
        simpa [countNewDates] using ih d hs2
      · have hlt : ∀ x ∈ d2 :: rest.map Prod.fst, d < x := by
          intro x hx
          rcases List.mem_cons.mp hx with hx2 | hx2
          · subst hx2
            exact lt_of_le_of_ne (List.rel_of_sorted_cons hs x hx) h
          · have hd2x : d2 ≤ x := List.rel_of_sorted_cons hs2 x hx2
            have hdd2 : d < d2 :=
              lt_of_le_of_ne (List.rel_of_sorted_cons hs d2 (by simp)) h
            exact lt_of_lt_of_le hdd2 hd2x
        have hnm : d ∉ d2 :: rest.map Prod.fst := fun hmem => lt_irrefl d (hlt d hmem)
        rw [List.dedup_cons_of_not_mem hnm]
        have hrec := ih d2 hs2
        have hpos : 0 < (d2 :: rest.map Prod.fst).dedup.length := dedup_cons_length_pos
        simp only [countNewDates, if_neg (by simp [h] : ¬(some d = some d2))]
        simp only [List.length_cons]
        omega

theorem countNewDates_sorted (pairs : List (Int × Int)) (hne : pairs ≠ [])
    (hs : List.Sorted (fun a b : Int => a ≤ b) (pairs.map Prod.fst)) :
    countNewDates pairs none = (pairs.map Prod.fst).dedup.length := by
  cases pairs with
  | nil => exact absurd rfl hne
  | cons pr rest =>
      obtain ⟨d, c⟩ := pr
      simp only [List.map_cons] at hs ⊢
      have hrec := countNewDates_sorted_some rest d hs
      have hpos : 0 < (d :: rest.map Prod.fst).dedup.length := dedup_cons_length_pos
      simp only [countNewDates, if_neg (by simp : ¬(none = some d))]
      omega

/-! ### Vocabulary-lookup lemmas for the tokenizer -/

theorem create_vocabulary_pad (codes : List Int) :
    vlookup (create_vocabulary codes) VKey.pad = some 0 := by
  rw [create_vocabulary, vlookup_append, vlookup_codes_part codes _ fun c h => by cases h]
  decide

theorem vlookup_isSome_of_mem_keys (L : List (VKey × Nat)) (k : VKey)
    (h : k ∈ L.map Prod.fst) : ∃ v, vlookup L k = some v := by
  induction L with
  | nil => simp at h
  | cons e rest ih =>
      by_cases he : e.1 = k
      · exact ⟨e.2, by simp [vlookup, he]⟩
      · have : k ∈ rest.map Prod.fst := by
          rcases List.mem_cons.mp h with h2 | h2
          · exact absurd h2.symm he
          · exact h2
        obtain ⟨v, hv⟩ := ih this
        exact ⟨v, by simp [vlookup, he, hv]⟩

theorem vocabGet_code_mem (codes : List Int) (c : Int) (h : c ∈ codes) :
    ∃ id, vlookup (create_vocabulary codes) (VKey.code c) = some id ∧
      vocabGet (create_vocabulary codes) (VKey.code c) = id := by
  have hkey : VKey.code c ∈ (create_vocabulary codes).map Prod.fst := by
    rw [create_vocabulary_keys]
    exact List.mem_append_left _
      (List.mem_map_of_mem VKey.code ((sortedUnique_mem codes c).mpr h))
  obtain ⟨v, hv⟩ := vlookup_isSome_of_mem_keys _ _ hkey
  exact ⟨v, hv, by rw [vocabGet, hv]; rfl⟩

theorem vocabGet_code_not_mem (codes : List Int) (c : Int) (h : c ∉ codes) :
    vocabGet (create_vocabulary codes) (VKey.code c) = 0 := by
  have hnone : vlookup (create_vocabulary codes) (VKey.code c) = none := by
    rw [create_vocabulary, vlookup_append]
    have hl : vlookup ((sortedUnique codes).enum.map fun ic => (VKey.code ic.2, ic.1 + 4))
        (VKey.code c) = none := by
      refine vlookup_eq_none _ _ fun e he => ?_
      obtain ⟨ic, hic, rfl⟩ := List.mem_map.mp he
      intro hcontra
      have : ic.2 = c := by injection hcontra
      have hmem : ic.2 ∈ sortedUnique codes := by
        have := List.enum_map_snd (sortedUnique codes)
        exact this ▸ List.mem_map_of_mem Prod.snd hic
      exact h ((sortedUnique_mem codes c).mp (this ▸ hmem))
    rw [hl]
    simp [reservedVocab, vlookup, Option.orElse]
  rw [vocabGet, hnone, create_vocabulary_pad]
  rfl

/-! ### Truncation lemmas -/

theorem lastN_length {α : Type*} (n : Nat) (l : List α) :
    (lastN n l).length = min n l.length := by
  simp only [lastN, List.length_drop]
  omega

theorem lastN_of_le {α : Type*} (n : Nat) (l : List α) (h : l.length ≤ n) : lastN n l = l := by
  simp [lastN, Nat.sub_eq_zero_of_le h]

theorem lastN_is_suffix {α : Type*} (n : Nat) (l : List α) :
    l.take (l.length - n) ++ lastN n l = l :=
  List.take_append_drop _ _

theorem zip_ne_nil_of_ne_nil {α β : Type*} {l₁ : List α} {l₂ : List β}
    (h₁ : l₁ ≠ []) (h₂ : l₂ ≠ []) : l₁.zip l₂ ≠ [] := by
  cases l₁ with
  | nil => exact absurd rfl h₁
  | cons a t₁ =>
      cases l₂ with
      | nil => exact absurd rfl h₂
      | cons b t₂ => simp [List.zip_cons_cons]

/-- C3: for a patient given as parallel code/date sequences sorted ascending
by date (with at least one event), the untruncated token sequence starts with
the sequence-start token, ends with a separator token, contains exactly one
day-boundary token per distinct event date and exactly as many separator
tokens as distinct event dates; its concept-code tokens are, in order, the
patient's codes; and the id of each code token is its vocabulary id, codes
absent from the vocabulary mapping to the padding id 0. -/
theorem tokenizer_structure_spec (events dates : List Int) (codes : List Int)
    (hlen : dates.length = events.length) (hne : dates ≠ [])
    (hs : List.Sorted (fun a b : Int => a ≤ b) dates) :
    (tokenize_strings (dates.zip events)).head? = some VKey.cls ∧
    (tokenize_strings (dates.zip events)).getLast? = some VKey.sep ∧
    (tokenize_strings (dates.zip events)).count VKey.day = dates.dedup.length ∧
    (tokenize_strings (dates.zip events)).count VKey.sep = dates.dedup.length ∧
    (tokenize_strings (dates.zip events)).filterMap codeOf = events ∧
    untruncated_token_ids events dates (create_vocabulary codes) =
      (tokenize_strings (dates.zip events)).map (vocabGet (create_vocabulary codes)) ∧
    (∀ c : Int, c ∈ codes →
      ∃ id, vlookup (create_vocabulary codes) (VKey.code c) = some id ∧
        vocabGet (create_vocabulary codes) (VKey.code c) = id) ∧
    (∀ c : Int, c ∉ codes → vocabGet (create_vocabulary codes) (VKey.code c) = 0) := by
  have hne2 : events ≠ [] := by
    intro h
    rw [h] at hlen
    exact hne (List.length_eq_zero.mp hlen)
  have hzne : dates.zip events ≠ [] := zip_ne_nil_of_ne_nil hne hne2
  have hfst : (dates.zip events).map Prod.fst = dates :=
    List.map_fst_zip dates events (le_of_eq hlen)
  have hsnd : (dates.zip events).map Prod.snd = events :=
    List.map_snd_zip dates events (ge_of_eq hlen)
  refine ⟨tokenize_strings_head _, tokenize_strings_getLast _, ?_, ?_, ?_, rfl,
    vocabGet_code_mem codes, vocabGet_code_not_mem codes⟩
  · rw [tokenize_strings_count_day,
      countNewDates_sorted _ hzne (by rw [hfst]; exact hs), hfst]
  · rw [tokenize_strings_count_sep _ hzne,
      countNewDates_sorted _ hzne (by rw [hfst]; exact hs), hfst]
  · rw [tokenize_strings_filterMap, hsnd]

/-- Witness for C3: two codes on day 0 and one on day 1 — token structure
`[CLS, DAY, 10, 20, SEP, DAY, 30, SEP]` with 2 day-boundary and 2 separator
tokens for 2 distinct dates. -/
theorem tokenizer_structure_spec_witness :
    ([(0 : Int), 0, 1].length = [(10 : Int), 20, 30].length) ∧
    ([(0 : Int), 0, 1] ≠ ([] : List Int)) ∧
    List.Sorted (fun a b : Int => a ≤ b) [(0 : Int), 0, 1] ∧
    (tokenize_strings ([(0 : Int), 0, 1].zip [(10 : Int), 20, 30])).count VKey.day = 2 ∧
    (tokenize_strings ([(0 : Int), 0, 1].zip [(10 : Int), 20, 30])).count VKey.sep = 2 := by
  have h := tokenizer_structure_spec [(10 : Int), 20, 30] [(0 : Int), 0, 1] []
    (by decide) (by decide) (by decide)
  refine ⟨by decide, by decide, by decide, ?_, ?_⟩
  · rw [h.2.2.1]
    decide
  · rw [h.2.2.2.1]
    decide

/-- C4: the emitted token-id sequence of `tokenize_patient_data` is the whole
untruncated id sequence when that fits in `M`, and exactly its length-`M`
suffix when it is longer; in all cases the emitted length is at most `M`. -/
theorem tokenizer_truncation_spec (M : Nat) (events dates : List Int)
    (vocab : List (VKey × Nat)) :
    (tokenize_patient_data M events dates vocab).length ≤ M ∧
    ((untruncated_token_ids events dates vocab).length ≤ M →
      tokenize_patient_data M events dates vocab = untruncated_token_ids events dates vocab) ∧
    (M < (untruncated_token_ids events dates vocab).length →
      (tokenize_patient_data M events dates vocab).length = M ∧
      (untruncated_token_ids events dates vocab).take
          ((untruncated_token_ids events dates vocab).length - M) ++
        tokenize_patient_data M events dates vocab =
        untruncated_token_ids events dates vocab) := by
  refine ⟨?_, ?_, fun h => ⟨?_, ?_⟩⟩
  · rw [tokenize_patient_data, lastN_length]
    exact Nat.min_le_left _ _
  · intro h
    exact lastN_of_le _ _ h
  · rw [tokenize_patient_data, lastN_length]
    omega
  · exact lastN_is_suffix _ _

/-- Witness for C4 on the long side: five same-day codes give an untruncated
sequence of length 8, and with maximum length 4 the emitted sequence is its
exact suffix of length 4. -/
theorem tokenizer_truncation_spec_witness :
    4 < (untruncated_token_ids [(10 : Int), 20, 30, 40, 50] [0, 0, 0, 0, 0]
      reservedVocab).length ∧
    (tokenize_patient_data 4 [(10 : Int), 20, 30, 40, 50] [0, 0, 0, 0, 0]
      reservedVocab).length = 4 ∧
    (untruncated_token_ids [(10 : Int), 20, 30, 40, 50] [0, 0, 0, 0, 0] reservedVocab).take
        ((untruncated_token_ids [(10 : Int), 20, 30, 40, 50] [0, 0, 0, 0, 0]
          reservedVocab).length - 4) ++
      tokenize_patient_data 4 [(10 : Int), 20, 30, 40, 50] [0, 0, 0, 0, 0] reservedVocab =
      untruncated_token_ids [(10 : Int), 20, 30, 40, 50] [0, 0, 0, 0, 0] reservedVocab := by
  have h := tokenizer_truncation_spec 4 [(10 : Int), 20, 30, 40, 50] [0, 0, 0, 0, 0]
    reservedVocab
  exact ⟨by decide, (h.2.2 (by decide)).1, (h.2.2 (by decide)).2⟩

/-! ### Write-once array-filling lemmas -/

theorem take_set_succ {α : Type*} (init : List α) (k : Nat) (v : α) (hk : k < init.length) :
    (init.set k v).take (k + 1) = init.take k ++ [v] := by
  rw [List.set_eq_take_append_cons_drop, if_pos hk]
  rw [show k + 1 = (init.take k).length + 1 by simp [List.length_take]; omega]
  rw [List.take_append]
  simp

theorem foldl_set_enumFrom {α β : Type*} (f : α → β) :
    ∀ (l : List α) (k : Nat) (init : List β), init.length = k + l.length →
      (l.enumFrom k).foldl (fun acc p => acc.set p.1 (f p.2)) init =
        init.take k ++ l.map f := by
  intro l
  induction l with
  | nil =>
      intro k init h
      simp only [List.length_nil, Nat.add_zero] at h
      simp [List.enumFrom, ← h, List.take_length]
  | cons a t ih =>
      intro k init h
      have hk : k < init.length := by
        simp only [List.length_cons] at h
        omega
      show (List.enumFrom (k + 1) t).foldl (fun acc p => acc.set p.1 (f p.2))
        (init.set k (f a)) = init.take k ++ (a :: t).map f
      rw [ih (k + 1) (init.set k (f a)) (by simp [List.length_set]; simp at h; omega)]
      rw [take_set_succ init k (f a) hk]
      simp

theorem foldl_set_snd_range {α β : Type*} (g : α → β) :
    ∀ (m : List (α × Nat)) (k : Nat) (init : List β),
      m.map Prod.snd = List.range' k m.length → init.length = k + m.length →
      m.foldl (fun acc p => acc.set p.2 (g p.1)) init =
        init.take k ++ m.map fun p => g p.1 := by
  intro m
  induction m with
  | nil =>
      intro k init _ h
      simp only [List.length_nil, Nat.add_zero] at h
      simp [← h, List.take_length]
  | cons e t ih =>
      intro k init hr h
      simp only [List.map_cons, List.length_cons, List.range'_succ, List.cons.injEq] at hr
      have hk : k < init.length := by
        simp only [List.length_cons] at h
        omega
      show (t.foldl (fun acc p => acc.set p.2 (g p.1)) (init.set e.2 (g e.1))) =
        init.take k ++ (e :: t).map fun p => g p.1
      rw [hr.1]
      rw [ih (k + 1) (init.set k (g e.1)) hr.2 (by simp [List.length_set]; simp at h; omega)]
      rw [take_set_succ init k (g e.1) hk]
      simp

/-! ### Characterisation of the assembled arrays -/

theorem process_padded_eq (M : Nat) (data : List EventRow) (starts : List (Int × Int))
    (mace : List (Int × Option Int)) :
    (process_patient_data M data starts mace).padded_sequences =
      (pidsOf (mergedOf data starts mace)).map
        (rowOf M (mergedOf data starts mace)
          (create_vocabulary ((sortEvents data).map fun r => r.concept_id))) := by
  have h := foldl_set_enumFrom
    (rowOf M (mergedOf data starts mace)
      (create_vocabulary ((sortEvents data).map fun r => r.concept_id)))
    (pidsOf (mergedOf data starts mace)) 0
    (List.replicate (pidsOf (mergedOf data starts mace)).length (List.replicate M 0))
    (by simp)
  simpa [process_patient_data] using h

theorem process_outcomes_eq (M : Nat) (data : List EventRow) (starts : List (Int × Int))
    (mace : List (Int × Option Int)) :
    (process_patient_data M data starts mace).mace_outcomes =
      (pidsOf (mergedOf data starts mace)).map (groupLabel (mergedOf data starts mace)) := by
  have h := foldl_set_enumFrom (groupLabel (mergedOf data starts mace))
    (pidsOf (mergedOf data starts mace)) 0
    (List.replicate (pidsOf (mergedOf data starts mace)).length (some 0))
    (by simp)
  simpa [process_patient_data] using h

theorem process_sample_ids_eq (M : Nat) (data : List EventRow) (starts : List (Int × Int))
    (mace : List (Int × Option Int)) :
    (process_patient_data M data starts mace).sample_ids = pidsOf (mergedOf data starts mace) := by
  have h := foldl_set_enumFrom (fun p : Int => p)
    (pidsOf (mergedOf data starts mace)) 0
    (List.replicate (pidsOf (mergedOf data starts mace)).length 0)
    (by simp)
  simpa [process_patient_data] using h

theorem process_lengths_eq (M : Nat) (data : List EventRow) (starts : List (Int × Int))
    (mace : List (Int × Option Int)) :
    (process_patient_data M data starts mace).input_lengths =
      (pidsOf (mergedOf data starts mace)).map
        (lenOf M (mergedOf data starts mace)
          (create_vocabulary ((sortEvents data).map fun r => r.concept_id))) := rfl

theorem process_mapping_eq (M : Nat) (data : List EventRow) (starts : List (Int × Int))
    (mace : List (Int × Option Int)) :
    (process_patient_data M data starts mace).sample_id_to_index =
      (pidsOf (mergedOf data starts mace)).enum.map fun ip => (ip.2, ip.1) := rfl

theorem process_vocab_eq (M : Nat) (data : List EventRow) (starts : List (Int × Int))
    (mace : List (Int × Option Int)) :
    (process_patient_data M data starts mace).vocab =
      create_vocabulary ((sortEvents data).map fun r => r.concept_id) := rfl

theorem process_max_eq (M : Nat) (data : List EventRow) (starts : List (Int × Int))
    (mace : List (Int × Option Int)) :
    (process_patient_data M data starts mace).max_seq_length =
      (pidsOf (mergedOf data starts mace)).foldl
        (fun m p => max m (tokLenOf M (mergedOf data starts mace)
          (create_vocabulary ((sortEvents data).map fun r => r.concept_id)) p)) 0 := rfl

/-! ### Join and grouping lemmas -/

theorem joinRow_fst {labels : List (Int × Int)} {r : EventRow} {rl : EventRow × Option Int}
    (h : rl ∈ joinRow labels r) : rl.1 = r := by
  simp only [joinRow] at h
  split at h
  · simp at h
    rw [h]
  · obtain ⟨m, -, rfl⟩ := List.mem_map.mp h
    rfl

theorem joinRow_exists (labels : List (Int × Int)) (r : EventRow) :
    ∃ v, (r, v) ∈ joinRow labels r := by
  simp only [joinRow]
  split
  · exact ⟨none, by simp⟩
  · rename_i h
    have hne : labels.filter (fun m => decide (m.1 = r.person_id)) ≠ [] := by
      intro h2
      simp [h2] at h
    obtain ⟨m, hm⟩ := List.exists_mem_of_ne_nil _ hne
    exact ⟨some m.2, List.mem_map.mpr ⟨m, hm, rfl⟩⟩

theorem joinRow_snd {labels : List (Int × Int)} {r : EventRow} {rl : EventRow × Option Int}
    (h : rl ∈ joinRow labels r) (habs : r.person_id ∉ labels.map Prod.fst) :
    rl.2 = none := by
  simp only [joinRow] at h
  split at h
  · simp at h
    rw [h]
  · obtain ⟨m, hm, rfl⟩ := List.mem_map.mp h
    have := List.of_mem_filter hm
    simp only [decide_eq_true_eq] at this
    exact absurd (this ▸ List.mem_map_of_mem Prod.fst (List.mem_of_mem_filter hm)) habs

theorem mem_mergedOf {data : List EventRow} {starts : List (Int × Int)}
    {mace : List (Int × Option Int)} {rl : EventRow × Option Int} :
    rl ∈ mergedOf data starts mace ↔
      ∃ r ∈ sortEvents data, rl ∈ joinRow (calculate_mace_outcomes starts mace) r := by
  simp [mergedOf, List.mem_flatMap]

theorem mergedOf_pids_toFinset (data : List EventRow) (starts : List (Int × Int))
    (mace : List (Int × Option Int)) :
    ((mergedOf data starts mace).map fun rl => rl.1.person_id).toFinset =
      (data.map fun r => r.person_id).toFinset := by
  ext a
  simp only [List.mem_toFinset, List.mem_map]
  constructor
  · rintro ⟨rl, hrl, rfl⟩
    obtain ⟨r, hr, hrj⟩ := mem_mergedOf.mp hrl
    exact ⟨r, (List.perm_insertionSort eventLE data).mem_iff.mp hr, by rw [joinRow_fst hrj]⟩
  · rintro ⟨r, hr, rfl⟩
    obtain ⟨v, hv⟩ := joinRow_exists (calculate_mace_outcomes starts mace) r
    exact ⟨(r, v), mem_mergedOf.mpr
      ⟨r, (List.perm_insertionSort eventLE data).mem_iff.mpr hr, hv⟩, rfl⟩

theorem sortedUnique_toFinset (l : List Int) : (sortedUnique l).toFinset = l.toFinset := by
  rw [List.toFinset_eq_iff_perm_dedup, (sortedUnique_nodup l).dedup]
  exact sortedUnique_perm_dedup l

/-- C1: in one `process_patient_data` invocation, the id-to-index mapping
lists exactly the assembled patients with row indices `0..N-1` in order and
without repetition (a bijection from the `N` distinct person ids of the event
table onto `{0, ..., N-1}`), and for every row `i` the patient at mapping row
`i` is the one whose tokenized events, outcome label and valid length fill
index `i` of the padded token matrix, the outcome array and the valid-length
array. -/
theorem assembler_row_alignment_spec (M : Nat) (data : List EventRow)
    (starts : List (Int × Int)) (mace : List (Int × Option Int)) :
    (process_patient_data M data starts mace).sample_id_to_index.map Prod.fst =
      (process_patient_data M data starts mace).sample_ids ∧
    (process_patient_data M data starts mace).sample_id_to_index.map Prod.snd =
      List.range (process_patient_data M data starts mace).sample_ids.length ∧
    (process_patient_data M data starts mace).sample_ids.Nodup ∧
    (process_patient_data M data starts mace).sample_ids.toFinset =
      (data.map fun r => r.person_id).toFinset ∧
    (process_patient_data M data starts mace).sample_ids.length =
      (data.map fun r => r.person_id).toFinset.card ∧
    (process_patient_data M data starts mace).padded_sequences.length =
      (process_patient_data M data starts mace).sample_ids.length ∧
    (process_patient_data M data starts mace).mace_outcomes.length =
      (process_patient_data M data starts mace).sample_ids.length ∧
    (process_patient_data M data starts mace).input_lengths.length =
      (process_patient_data M data starts mace).sample_ids.length ∧
    ∀ (i : Nat) (p : Int),
      (process_patient_data M data starts mace).sample_ids[i]? = some p →
      (process_patient_data M data starts mace).sample_id_to_index[i]? = some (p, i) ∧
      (process_patient_data M data starts mace).padded_sequences[i]? =
        some (rowOf M (mergedOf data starts mace)
          (create_vocabulary ((sortEvents data).map fun r => r.concept_id)) p) ∧
      (process_patient_data M data starts mace).mace_outcomes[i]? =
        some (groupLabel (mergedOf data starts mace) p) ∧
      (process_patient_data M data starts mace).input_lengths[i]? =
        some (lenOf M (mergedOf data starts mace)
          (create_vocabulary ((sortEvents data).map fun r => r.concept_id)) p) := by
  rw [process_mapping_eq, process_sample_ids_eq, process_padded_eq, process_outcomes_eq,
    process_lengths_eq]
  refine ⟨?_, ?_, sortedUnique_nodup _, ?_, ?_, by simp, by simp, by simp, ?_⟩
  · rw [List.map_map]
    rw [show (Prod.fst ∘ fun ip : Nat × Int => (ip.2, ip.1)) = Prod.snd from rfl,
      List.enum_map_snd]
  · rw [List.map_map]
    rw [show (Prod.snd ∘ fun ip : Nat × Int => (ip.2, ip.1)) = Prod.fst from rfl,
      List.enum_map_fst]
  · rw [pidsOf, sortedUnique_toFinset, mergedOf_pids_toFinset]
  · rw [pidsOf, sortedUnique_length, mergedOf_pids_toFinset]
  · intro i p hp
    refine ⟨?_, ?_, ?_, ?_⟩
    · rw [List.getElem?_map, List.getElem?_enum, hp]
      rfl
    · rw [List.getElem?_map, hp]
      rfl
    · rw [List.getElem?_map, hp]
      rfl
    · rw [List.getElem?_map, hp]
      rfl

/-- Witness for C1: two patients (ids 1 and 2, inserted out of order); the
theorem is applied at row 0, which carries patient 1's label row. -/
theorem assembler_row_alignment_spec_witness :
    (process_patient_data 8 [⟨2, 30, 5⟩, ⟨1, 10, 3⟩, ⟨1, 20, 4⟩] [((1 : Int), (0 : Int))]
      [((1 : Int), some (100 : Int))]).sample_ids[0]? = some 1 ∧
    (process_patient_data 8 [⟨2, 30, 5⟩, ⟨1, 10, 3⟩, ⟨1, 20, 4⟩] [((1 : Int), (0 : Int))]
      [((1 : Int), some (100 : Int))]).sample_id_to_index[0]? = some (1, 0) ∧
    (process_patient_data 8 [⟨2, 30, 5⟩, ⟨1, 10, 3⟩, ⟨1, 20, 4⟩] [((1 : Int), (0 : Int))]
      [((1 : Int), some (100 : Int))]).mace_outcomes[0]? =
      some (groupLabel (mergedOf [⟨2, 30, 5⟩, ⟨1, 10, 3⟩, ⟨1, 20, 4⟩] [((1 : Int), (0 : Int))]
        [((1 : Int), some (100 : Int))]) 1) := by
  have h := assembler_row_alignment_spec 8 [⟨2, 30, 5⟩, ⟨1, 10, 3⟩, ⟨1, 20, 4⟩]
    [((1 : Int), (0 : Int))] [((1 : Int), some (100 : Int))]
  have h0 := h.2.2.2.2.2.2.2.2 0 1 (by decide)
  exact ⟨by decide, h0.1, h0.2.2.1⟩

theorem mem_of_getElem?_some {α : Type*} {l : List α} {i : Nat} {a : α}
    (h : l[i]? = some a) : a ∈ l := by
  obtain ⟨hlt, rfl⟩ := List.getElem?_eq_some.mp h
  exact List.getElem_mem hlt

theorem calc_mace_fst_mem (starts : List (Int × Int)) (mace : List (Int × Option Int)) :
    ∀ e ∈ calculate_mace_outcomes starts mace, e.1 ∈ starts.map Prod.fst := by
  intro e he
  simp only [calculate_mace_outcomes, List.mem_map] at he
  obtain ⟨r, hr, rfl⟩ := he
  simp only [leftJoinMace, List.mem_flatMap] at hr
  obtain ⟨s, hs, hrs⟩ := hr
  have : r.1 = s.1 := by
    split at hrs
    · simp at hrs
      rw [hrs]
    · obtain ⟨m, -, rfl⟩ := List.mem_map.mp hrs
      rfl
  rw [this]
  exact List.mem_map_of_mem Prod.fst hs

theorem groupLabel_eq_none_of_absent (data : List EventRow) (starts : List (Int × Int))
    (mace : List (Int × Option Int)) (p : Int)
    (hmem : p ∈ pidsOf (mergedOf data starts mace)) (habs : p ∉ starts.map Prod.fst) :
    groupLabel (mergedOf data starts mace) p = none := by
  have hp2 : p ∈ (mergedOf data starts mace).map fun rl => rl.1.person_id :=
    (sortedUnique_mem _ p).mp hmem
  obtain ⟨rl0, hrl0, hrl0p⟩ := List.mem_map.mp hp2
  have hgr : rl0 ∈ groupRows (mergedOf data starts mace) p :=
    List.mem_filter.mpr ⟨hrl0, by simp [hrl0p]⟩
  cases hgrs : groupRows (mergedOf data starts mace) p with
  | nil =>
      rw [hgrs] at hgr
      exact absurd hgr (List.not_mem_nil rl0)
  | cons h0 t =>
      have hh0 : h0 ∈ groupRows (mergedOf data starts mace) p := by
        rw [hgrs]
        exact List.mem_cons_self h0 t
      have hpid : h0.1.person_id = p := by
        have := List.of_mem_filter hh0
        simpa using this
      have h0none : h0.2 = none := by
        obtain ⟨r, hr, hrj⟩ := mem_mergedOf.mp (List.mem_of_mem_filter hh0)
        refine joinRow_snd hrj fun hin => habs ?_
        rw [joinRow_fst hrj] at hpid
        obtain ⟨m, hm, hmp⟩ := List.mem_map.mp hin
        have := calc_mace_fst_mem starts mace m hm
        rw [hmp, hpid] at this
        exact this
      rw [groupLabel, hgrs]
      simp [h0none]

/-- C6 counterexample: one event-table patient absent from the index-date
table; the value written into the outcome array for that patient is the
missing marker (`NaN`, modelled `none`), not 0. -/
theorem assembler_missing_label_counterexample :
    (process_patient_data MAX_SEQ_LENGTH [⟨1, 10, 0⟩] [] []).mace_outcomes = [none] ∧
    (none : Option Int) ≠ some 0 :=
  ⟨by decide, by decide⟩

/-- C6 (amended): a patient present in the event table but absent from the
index-date table receives no computed label, and the value written at that
patient's index of the outcome array is the missing value `NaN` (modelled
`none`), not 0. -/
theorem assembler_missing_label_spec (M : Nat) (data : List EventRow)
    (starts : List (Int × Int)) (mace : List (Int × Option Int)) (i : Nat) (p : Int)
    (hp : (process_patient_data M data starts mace).sample_ids[i]? = some p)
    (habs : p ∉ starts.map Prod.fst) :
    (process_patient_data M data starts mace).mace_outcomes[i]? = some none := by
  rw [process_sample_ids_eq] at hp
  have hmem : p ∈ pidsOf (mergedOf data starts mace) := mem_of_getElem?_some hp
  rw [process_outcomes_eq, List.getElem?_map, hp]
  simp [groupLabel_eq_none_of_absent data starts mace p hmem habs]

/-- Witness for C6 (amended): patient 2 has events but no index-date row, so
its outcome entry is `NaN`. -/
theorem assembler_missing_label_spec_witness :
    ((process_patient_data 8 [⟨1, 10, 0⟩, ⟨2, 20, 0⟩] [((1 : Int), (0 : Int))]
        []).sample_ids[1]? = some 2) ∧
    ((2 : Int) ∉ ([((1 : Int), (0 : Int))].map Prod.fst)) ∧
    (process_patient_data 8 [⟨1, 10, 0⟩, ⟨2, 20, 0⟩] [((1 : Int), (0 : Int))]
        []).mace_outcomes[1]? = some none :=
  ⟨by decide, by decide,
    assembler_missing_label_spec 8 [⟨1, 10, 0⟩, ⟨2, 20, 0⟩] [((1 : Int), (0 : Int))] [] 1 2
      (by decide) (by decide)⟩

/-- C8: every stored token-matrix row has length exactly the maximum sequence
length, consisting of the (possibly truncated) token sequence at the low
indices followed by padding-id zeros at every trailing position, and the
valid-length entry for the row is the post-truncation token count. -/
theorem assembler_padding_length_spec (M : Nat) (data : List EventRow)
    (starts : List (Int × Int)) (mace : List (Int × Option Int)) (i : Nat) (p : Int)
    (hp : (process_patient_data M data starts mace).sample_ids[i]? = some p) :
    ∃ tokens : List Nat,
      tokens = tokenize_patient_data M (groupCodes (mergedOf data starts mace) p)
        (groupDates (mergedOf data starts mace) p)
        (create_vocabulary ((sortEvents data).map fun r => r.concept_id)) ∧
      tokens.length ≤ M ∧
      (process_patient_data M data starts mace).padded_sequences[i]? =
        some (tokens ++ List.replicate (M - tokens.length) 0) ∧
      (tokens ++ List.replicate (M - tokens.length) 0).length = M ∧
      (∀ j : Nat, tokens.length ≤ j →
        (tokens ++ List.replicate (M - tokens.length) 0)[j]? =
          if j < M then some 0 else none) ∧
      (process_patient_data M data starts mace).input_lengths[i]? = some tokens.length := by
  rw [process_sample_ids_eq] at hp
  refine ⟨tokenize_patient_data M (groupCodes (mergedOf data starts mace) p)
    (groupDates (mergedOf data starts mace) p)
    (create_vocabulary ((sortEvents data).map fun r => r.concept_id)), rfl, ?_, ?_, ?_, ?_, ?_⟩
  all_goals
    have hlen : (tokenize_patient_data M (groupCodes (mergedOf data starts mace) p)
        (groupDates (mergedOf data starts mace) p)
        (create_vocabulary ((sortEvents data).map fun r => r.concept_id))).length ≤ M := by
      rw [tokenize_patient_data, lastN_length]
      exact Nat.min_le_left _ _
  · exact hlen
  · rw [process_padded_eq, List.getElem?_map, hp]
    simp [rowOf, Nat.min_eq_left hlen, List.take_length]
  · simp only [List.length_append, List.length_replicate]
    omega
  · intro j hj
    rw [List.getElem?_append_right hj, List.getElem?_replicate]
    by_cases hjM : j < M
    · rw [if_pos (by omega), if_pos hjM]
    · rw [if_neg (by omega), if_neg hjM]
  · rw [process_lengths_eq, List.getElem?_map, hp]
    simp [lenOf, tokLenOf, Nat.min_eq_left hlen]

/-- Witness for C8: one patient with three events on two days and maximum
length 6; the untruncated sequence has 8 tokens, so the stored row is the
6-token suffix with no padding left over and valid length 6. -/
theorem assembler_padding_length_spec_witness :
    ((process_patient_data 6 [⟨1, 10, 0⟩, ⟨1, 20, 0⟩, ⟨1, 30, 1⟩] [((1 : Int), (0 : Int))]
        []).sample_ids[0]? = some 1) ∧
    (∃ tokens : List Nat,
      tokens = tokenize_patient_data 6
        (groupCodes (mergedOf [⟨1, 10, 0⟩, ⟨1, 20, 0⟩, ⟨1, 30, 1⟩] [((1 : Int), (0 : Int))] []) 1)
        (groupDates (mergedOf [⟨1, 10, 0⟩, ⟨1, 20, 0⟩, ⟨1, 30, 1⟩] [((1 : Int), (0 : Int))] []) 1)
        (create_vocabulary ((sortEvents [⟨1, 10, 0⟩, ⟨1, 20, 0⟩, ⟨1, 30, 1⟩]).map
          fun r => r.concept_id)) ∧
      tokens.length ≤ 6 ∧
      (process_patient_data 6 [⟨1, 10, 0⟩, ⟨1, 20, 0⟩, ⟨1, 30, 1⟩] [((1 : Int), (0 : Int))]
          []).padded_sequences[0]? = some (tokens ++ List.replicate (6 - tokens.length) 0) ∧
      (tokens ++ List.replicate (6 - tokens.length) 0).length = 6 ∧
      (∀ j : Nat, tokens.length ≤ j →
        (tokens ++ List.replicate (6 - tokens.length) 0)[j]? =
          if j < 6 then some 0 else none) ∧
      (process_patient_data 6 [⟨1, 10, 0⟩, ⟨1, 20, 0⟩, ⟨1, 30, 1⟩] [((1 : Int), (0 : Int))]
          []).input_lengths[0]? = some tokens.length) :=
  ⟨by decide, assembler_padding_length_spec 6 [⟨1, 10, 0⟩, ⟨1, 20, 0⟩, ⟨1, 30, 1⟩]
    [((1 : Int), (0 : Int))] [] 0 1 (by decide)⟩

/-! ### Reported-maximum lemmas -/

theorem tokLenOf_le (M : Nat) (merged : List (EventRow × Option Int))
    (vocab : List (VKey × Nat)) (p : Int) : tokLenOf M merged vocab p ≤ M := by
  rw [tokLenOf, tokenize_patient_data, lastN_length]
  exact Nat.min_le_left _ _

theorem lenOf_eq_tokLenOf (M : Nat) (merged : List (EventRow × Option Int))
    (vocab : List (VKey × Nat)) (p : Int) :
    lenOf M merged vocab p = tokLenOf M merged vocab p :=
  Nat.min_eq_left (tokLenOf_le M merged vocab p)

theorem foldl_max_le {l : List Nat} {M : Nat} :
    ∀ {init : Nat}, init ≤ M → (∀ x ∈ l, x ≤ M) → l.foldl max init ≤ M := by
  induction l with
  | nil => intro init hinit _; exact hinit
  | cons a t ih =>
      intro init hinit h
      exact ih (max_le hinit (h a (by simp))) fun x hx => h x (List.mem_cons_of_mem _ hx)

/-- C9 (amended): the reported maximum sequence length equals the maximum
post-truncation token count over all patients (the folded maximum of the
valid-length array), and therefore never exceeds the maximum sequence
length `M` — not the raw pre-truncation count. -/
theorem assembler_reported_max_spec (M : Nat) (data : List EventRow)
    (starts : List (Int × Int)) (mace : List (Int × Option Int)) :
    (process_patient_data M data starts mace).max_seq_length =
      (process_patient_data M data starts mace).input_lengths.foldl max 0 ∧
    (process_patient_data M data starts mace).max_seq_length ≤ M := by
  have hfold : (process_patient_data M data starts mace).input_lengths.foldl max 0 =
      (pidsOf (mergedOf data starts mace)).foldl
        (fun m p => max m (tokLenOf M (mergedOf data starts mace)
          (create_vocabulary ((sortEvents data).map fun r => r.concept_id)) p)) 0 := by
    rw [process_lengths_eq, List.foldl_map]
    simp only [lenOf_eq_tokLenOf]
  constructor
  · rw [process_max_eq, hfold]
  · rw [process_max_eq, ← List.foldl_map]
    exact foldl_max_le (Nat.zero_le M) fun x hx => by
      obtain ⟨p, -, rfl⟩ := List.mem_map.mp hx
      exact tokLenOf_le M _ _ p

/-! ### The truncation counterexample input -/

theorem cexData_pairwise (n : Nat) : List.Pairwise eventLE (cexData n) := by
  rw [cexData, List.pairwise_map]
  have : ∀ l : List Nat,
      List.Pairwise (fun a b : Nat => eventLE ⟨1, Int.ofNat a, 0⟩ ⟨1, Int.ofNat b, 0⟩) l := by
    intro l
    induction l with
    | nil => exact List.Pairwise.nil
    | cons a t ih => exact List.Pairwise.cons (fun b _ => Or.inr ⟨rfl, le_refl 0⟩) ih
  exact this (List.range n)

theorem sortEvents_cexData (n : Nat) : sortEvents (cexData n) = cexData n :=
  List.Sorted.insertionSort_eq (cexData_pairwise n)

theorem flatMap_joinRow_nil (l : List EventRow) :
    l.flatMap (joinRow []) = l.map fun r => (r, none) := by
  induction l with
  | nil => rfl
  | cons a t ih => simp [List.flatMap_cons, joinRow, ih]

theorem mergedOf_nil_labels (data : List EventRow) :
    mergedOf data [] [] = (sortEvents data).map fun r => (r, none) := by
  rw [mergedOf]
  exact flatMap_joinRow_nil (sortEvents data)

theorem mergedOf_cexData (n : Nat) :
    mergedOf (cexData n) [] [] =
      (List.range n).map fun j => (⟨1, Int.ofNat j, 0⟩, none) := by
  rw [mergedOf_nil_labels, sortEvents_cexData, cexData, List.map_map]
  rfl

theorem groupRows_cexData (n : Nat) :
    groupRows (mergedOf (cexData n) [] []) 1 = mergedOf (cexData n) [] [] := by
  refine List.filter_eq_self.mpr fun rl hrl => ?_
  rw [mergedOf_cexData] at hrl
  obtain ⟨j, -, rfl⟩ := List.mem_map.mp hrl
  rfl

theorem groupDates_cexData (n : Nat) :
    groupDates (mergedOf (cexData n) [] []) 1 = (List.range n).map fun _ => 0 := by
  rw [groupDates, groupRows_cexData, mergedOf_cexData, List.map_map]
  rfl

theorem groupCodes_cexData (n : Nat) :
    groupCodes (mergedOf (cexData n) [] []) 1 = (List.range n).map fun j => Int.ofNat j := by
  rw [groupCodes, groupRows_cexData, mergedOf_cexData, List.map_map]
  rfl

theorem dedup_const (a : Int) :
    ∀ l : List Int, l ≠ [] → (∀ x ∈ l, x = a) → l.dedup = [a] := by
  intro l
  induction l with
  | nil => intro h _; exact absurd rfl h
  | cons x t ih =>
      intro _ hall
      have hx : x = a := hall x (by simp)
      subst hx
      by_cases ht : t = []
      · subst ht
        rfl
      · have hmem : x ∈ t := by
          obtain ⟨y, hy⟩ := List.exists_mem_of_ne_nil t ht
          have : y = x := hall y (List.mem_cons_of_mem _ hy)
          exact this ▸ hy
        rw [List.dedup_cons_of_mem hmem]
        exact ih ht fun y hy => hall y (List.mem_cons_of_mem _ hy)

theorem pidsOf_cexData (n : Nat) (hn : n ≠ 0) : pidsOf (mergedOf (cexData n) [] []) = [1] := by
  rw [pidsOf]
  have hmap : (mergedOf (cexData n) [] []).map (fun rl => rl.1.person_id) =
      (List.range n).map fun _ => (1 : Int) := by
    rw [mergedOf_cexData, List.map_map]
    rfl
  rw [hmap, sortedUnique, dedup_const 1 _ (by simp [hn]) ?_]
  · rfl
  · intro x hx
    obtain ⟨j, -, rfl⟩ := List.mem_map.mp hx
    rfl

theorem tokLoop_length_const (d : Int) :
    ∀ pairs : List (Int × Int), (∀ x ∈ pairs, x.1 = d) →
      (tokLoop pairs (some d)).length = pairs.length + 1 := by
  intro pairs
  induction pairs with
  | nil => intro _; rfl
  | cons pr rest ih =>
      intro hall
      obtain ⟨d2, c⟩ := pr
      have hd2 : d2 = d := hall (d2, c) (by simp)
      subst hd2
      simp [tokLoop, ih fun x hx => hall x (List.mem_cons_of_mem _ hx)]

theorem tokenize_strings_length_const (d : Int) (pairs : List (Int × Int)) (hne : pairs ≠ [])
    (hall : ∀ x ∈ pairs, x.1 = d) :
    (tokenize_strings pairs).length = pairs.length + 3 := by
  cases pairs with
  | nil => exact absurd rfl hne
  | cons pr rest =>
      obtain ⟨d2, c⟩ := pr
      have hd2 : d2 = d := hall (d2, c) (by simp)
      have hrest := tokLoop_length_const d rest fun x hx => hall x (List.mem_cons_of_mem _ hx)
      simp [tokenize_strings, tokLoop, hd2, hrest]

theorem untruncated_token_ids_length (events dates : List Int) (vocab : List (VKey × Nat)) :
    (untruncated_token_ids events dates vocab).length =
      (tokenize_strings (dates.zip events)).length := by
  rw [untruncated_token_ids, List.length_map]

/-- C9 counterexample: a single patient with 1025 same-day events.  The raw
(pre-truncation) token count is 1028, exceeding the maximum length 1024, but
the reported "max sequence length" is 1024 — the post-truncation count — so
the summary does not report the raw maximum and never exceeds the maximum
length. -/
theorem assembler_reported_max_counterexample :
    (process_patient_data MAX_SEQ_LENGTH (cexData 1025) [] []).max_seq_length = 1024 ∧
    (untruncated_token_ids (groupCodes (mergedOf (cexData 1025) [] []) 1)
      (groupDates (mergedOf (cexData 1025) [] []) 1)
      (process_patient_data MAX_SEQ_LENGTH (cexData 1025) [] []).vocab).length = 1028 ∧
    (1024 : Nat) ≠ 1028 := by
  have hdates : groupDates (mergedOf (cexData 1025) [] []) 1 =
      (List.range 1025).map fun _ => (0 : Int) := groupDates_cexData 1025
  have hdlen : (groupDates (mergedOf (cexData 1025) [] []) 1).length = 1025 := by
    rw [hdates, List.length_map, List.length_range]
  have hclen : (groupCodes (mergedOf (cexData 1025) [] []) 1).length = 1025 := by
    rw [groupCodes_cexData, List.length_map, List.length_range]
  have hpairs : ((groupDates (mergedOf (cexData 1025) [] []) 1).zip
      (groupCodes (mergedOf (cexData 1025) [] []) 1)).length = 1025 := by
    rw [List.length_zip, hdlen, hclen]
    exact Nat.min_self 1025
  have hpne : (groupDates (mergedOf (cexData 1025) [] []) 1).zip
      (groupCodes (mergedOf (cexData 1025) [] []) 1) ≠ [] := by
    intro h
    rw [h] at hpairs
    exact absurd hpairs (by decide)
  have hall : ∀ x ∈ (groupDates (mergedOf (cexData 1025) [] []) 1).zip
      (groupCodes (mergedOf (cexData 1025) [] []) 1), x.1 = 0 := by
    intro x hx
    obtain ⟨d, c⟩ := x
    have hd := (List.of_mem_zip hx).1
    rw [hdates] at hd
    obtain ⟨j, -, rfl⟩ := List.mem_map.mp hd
    rfl
  have hts : ((tokenize_strings ((groupDates (mergedOf (cexData 1025) [] []) 1).zip
      (groupCodes (mergedOf (cexData 1025) [] []) 1)))).length = 1028 := by
    rw [tokenize_strings_length_const 0 _ hpne hall, hpairs]
  have huntrunc : ∀ vocab : List (VKey × Nat),
      (untruncated_token_ids (groupCodes (mergedOf (cexData 1025) [] []) 1)
        (groupDates (mergedOf (cexData 1025) [] []) 1) vocab).length = 1028 := fun vocab => by
    rw [untruncated_token_ids_length, hts]
  refine ⟨?_, huntrunc _, by decide⟩
  rw [process_max_eq, pidsOf_cexData 1025 (by decide)]
  show max 0 (tokLenOf MAX_SEQ_LENGTH (mergedOf (cexData 1025) [] [])
    (create_vocabulary ((sortEvents (cexData 1025)).map fun r => r.concept_id)) 1) = 1024
  rw [tokLenOf, tokenize_patient_data, lastN_length, huntrunc]
  rfl

/-! ### Mortality-aligner lemmas -/

theorem death_12m_one_iff (r : DeathRow) :
    death_12m r = 1 ↔ ∃ dd, r.death_date = some dd ∧
      0 ≤ dd - r.first_exposure_date ∧ dd - r.first_exposure_date ≤ 365 := by
  cases hdd : r.death_date with
  | none => simp [death_12m, hdd]
  | some dd =>
      by_cases h : 0 ≤ dd - r.first_exposure_date ∧ dd - r.first_exposure_date ≤ 365
      · simp only [death_12m, hdd, if_pos h]
        exact ⟨fun _ => ⟨dd, rfl, h⟩, fun _ => trivial⟩
      · simp only [death_12m, hdd, if_neg h]
        constructor
        · intro h01
          exact absurd h01 (by decide)
        · rintro ⟨dd2, hdd2, hq⟩
          injection hdd2 with h2
          subst h2
          exact absurd hq h

theorem death_12m_mem01 (r : DeathRow) : death_12m r = 0 ∨ death_12m r = 1 := by
  cases hdd : r.death_date with
  | none => left; simp [death_12m, hdd]
  | some dd =>
      by_cases h : 0 ≤ dd - r.first_exposure_date ∧ dd - r.first_exposure_date ≤ 365
      · right
        simp only [death_12m, hdd, if_pos h]
      · left
        simp only [death_12m, hdd, if_neg h]

theorem death_dict_get_mem01 (deaths : List DeathRow) (p : Int) :
    death_dict_get deaths p = 0 ∨ death_dict_get deaths p = 1 := by
  rw [death_dict_get]
  cases h : deaths.reverse.find? fun r => decide (r.person_id = p) with
  | none => left; rfl
  | some r => exact death_12m_mem01 r

theorem find?_reverse_of_nodup {deaths : List DeathRow} {p : Int}
    (hnd : (deaths.map fun r => r.person_id).Nodup) {r : DeathRow} (hr : r ∈ deaths)
    (hp : r.person_id = p) :
    deaths.reverse.find? (fun x => decide (x.person_id = p)) = some r := by
  have hsome : (deaths.reverse.find? fun x => decide (x.person_id = p)).isSome = true :=
    List.find?_isSome.mpr ⟨r, List.mem_reverse.mpr hr, by simp [hp]⟩
  cases hfind : deaths.reverse.find? fun x => decide (x.person_id = p) with
  | none => rw [hfind] at hsome; exact absurd hsome (by simp)
  | some x =>
      have hxmem : x ∈ deaths := List.mem_reverse.mp (List.mem_of_find?_eq_some hfind)
      have hxp : x.person_id = p := by simpa using List.find?_some hfind
      have : x = r := List.inj_on_of_nodup_map hnd hxmem hr (hxp.trans hp.symm)
      rw [this]

theorem death_dict_get_one_iff (deaths : List DeathRow) (p : Int)
    (hnd : (deaths.map fun r => r.person_id).Nodup) :
    death_dict_get deaths p = 1 ↔ ∃ r ∈ deaths, r.person_id = p ∧ death_12m r = 1 := by
  constructor
  · intro h
    rw [death_dict_get] at h
    cases hfind : deaths.reverse.find? fun x => decide (x.person_id = p) with
    | none => rw [hfind] at h; exact absurd h (by decide)
    | some x =>
        rw [hfind] at h
        exact ⟨x, List.mem_reverse.mp (List.mem_of_find?_eq_some hfind),
          by simpa using List.find?_some hfind, h⟩
  · rintro ⟨r, hr, hp, h1⟩
    rw [death_dict_get, find?_reverse_of_nodup hnd hr hp]
    exact h1

theorem death_dict_get_append_ne (deaths : List DeathRow) (r : DeathRow) (p : Int)
    (hne : r.person_id ≠ p) :
    death_dict_get (deaths ++ [r]) p = death_dict_get deaths p := by
  rw [death_dict_get, death_dict_get, List.reverse_append]
  simp only [List.reverse_cons, List.reverse_nil, List.nil_append, List.cons_append,
    List.find?_cons]
  simp [hne]

theorem mortality_align_char (deaths : List DeathRow) (mapping : List (Int × Nat))
    (hmap : mapping.map Prod.snd = List.range mapping.length) :
    mortality_align deaths mapping = mapping.map fun e => death_dict_get deaths e.1 := by
  have h := foldl_set_snd_range (death_dict_get deaths) mapping 0
    (List.replicate mapping.length 0) (by simpa [List.range_eq_range'] using hmap) (by simp)
  simpa [mortality_align] using h

/-- C7: the Mortality Label Aligner returns an array of the mapping's size;
row `i` (the row the mapping sends its `i`-th patient to) holds 1 exactly when
that patient has a death-table row with a present death date whose elapsed
days from first exposure lie in `[0, 365]`, and 0 otherwise (a binary value in
all cases); death-table rows for patients outside the mapping have no effect. -/
theorem mortality_aligner_spec (deaths : List DeathRow) (mapping : List (Int × Nat))
    (hmap : mapping.map Prod.snd = List.range mapping.length)
    (hnd : (deaths.map fun r => r.person_id).Nodup) :
    (mortality_align deaths mapping).length = mapping.length ∧
    (∀ (i : Nat) (p : Int) (idx : Nat), mapping[i]? = some (p, idx) →
      idx = i ∧
      (mortality_align deaths mapping)[i]? = some (death_dict_get deaths p) ∧
      (death_dict_get deaths p = 1 ↔
        ∃ r ∈ deaths, r.person_id = p ∧ ∃ dd, r.death_date = some dd ∧
          0 ≤ dd - r.first_exposure_date ∧ dd - r.first_exposure_date ≤ 365) ∧
      (death_dict_get deaths p = 0 ∨ death_dict_get deaths p = 1)) ∧
    ∀ r : DeathRow, r.person_id ∉ mapping.map Prod.fst →
      mortality_align (deaths ++ [r]) mapping = mortality_align deaths mapping := by
  refine ⟨?_, ?_, ?_⟩
  · rw [mortality_align_char deaths mapping hmap, List.length_map]
  · intro i p idx hpi
    have hidx : idx = i := by
      have h1 : (mapping.map Prod.snd)[i]? = some idx := by
        rw [List.getElem?_map, hpi]
        rfl
      have hi : i < mapping.length := by
        obtain ⟨hlt, -⟩ := List.getElem?_eq_some.mp hpi
        exact hlt
      rw [hmap, List.getElem?_range hi] at h1
      exact (Option.some_inj.mp h1).symm
    refine ⟨hidx, ?_, ?_, death_dict_get_mem01 deaths p⟩
    · rw [mortality_align_char deaths mapping hmap, List.getElem?_map, hpi]
      rfl
    · rw [death_dict_get_one_iff deaths p hnd]
      constructor
      · rintro ⟨r, hr, hp, h1⟩
        exact ⟨r, hr, hp, (death_12m_one_iff r).mp h1⟩
      · rintro ⟨r, hr, hp, hdd⟩
        exact ⟨r, hr, hp, (death_12m_one_iff r).mpr hdd⟩
  · intro r hout
    rw [mortality_align_char _ mapping hmap, mortality_align_char _ mapping hmap]
    refine List.map_congr_left fun e he => ?_
    refine death_dict_get_append_ne deaths r e.1 fun hre => ?_
    exact hout (hre ▸ List.mem_map_of_mem Prod.fst he)

/-- Witness for C7: patient 5 (death 100 days after exposure) is labeled 1 at
its mapped row 0; patient 7 (no death row) is labeled 0 at row 1. -/
theorem mortality_aligner_spec_witness :
    ((([⟨5, 0, some 100⟩] : List DeathRow).map fun r => r.person_id).Nodup) ∧
    ([((5 : Int), (0 : Nat)), (7, 1)].map Prod.snd =
      List.range ([((5 : Int), (0 : Nat)), (7, 1)].length)) ∧
    (mortality_align [⟨5, 0, some 100⟩] [((5 : Int), 0), (7, 1)])[0]? =
      some (death_dict_get [⟨5, 0, some 100⟩] 5) ∧
    death_dict_get [⟨5, 0, some 100⟩] 5 = 1 ∧
    (mortality_align [⟨5, 0, some 100⟩] [((5 : Int), 0), (7, 1)])[1]? =
      some (death_dict_get [⟨5, 0, some 100⟩] 7) ∧
    death_dict_get [⟨5, 0, some 100⟩] 7 = 0 := by
  have h := mortality_aligner_spec [⟨5, 0, some 100⟩] [((5 : Int), 0), (7, 1)]
    (by decide) (by decide)
  exact ⟨by decide, by decide, (h.2.1 0 5 0 (by decide)).2.1, by decide,
    (h.2.1 1 7 1 (by decide)).2.1, by decide⟩

/-! ### Replicated-row (duplicate index-date) lemmas -/

theorem expandCodes_append (k : Nat) (l₁ l₂ : List VKey) :
    expandCodes k (l₁ ++ l₂) = expandCodes k l₁ ++ expandCodes k l₂ := by
  induction l₁ with
  | nil => rfl
  | cons t rest ih => cases t <;> simp [expandCodes, ih]

theorem expandCodes_count_day (k : Nat) (l : List VKey) :
    (expandCodes k l).count VKey.day = l.count VKey.day := by
  induction l with
  | nil => rfl
  | cons t rest ih =>
      cases t <;>
        simp [expandCodes, List.count_cons, List.count_append, List.count_replicate, ih]

theorem expandCodes_count_sep (k : Nat) (l : List VKey) :
    (expandCodes k l).count VKey.sep = l.count VKey.sep := by
  induction l with
  | nil => rfl
  | cons t rest ih =>
      cases t <;>
        simp [expandCodes, List.count_cons, List.count_append, List.count_replicate, ih]

theorem filterMap_codeOf_replicate (k : Nat) (c : Int) :
    (List.replicate k (VKey.code c)).filterMap codeOf = List.replicate k c := by
  induction k with
  | zero => rfl
  | succ k ih => simp [List.replicate_succ, List.filterMap_cons, codeOf, ih]

theorem expandCodes_filterMap (k : Nat) (l : List VKey) :
    (expandCodes k l).filterMap codeOf =
      (l.filterMap codeOf).flatMap fun c => List.replicate k c := by
  induction l with
  | nil => rfl
  | cons t rest ih =>
      cases t <;>
        simp [expandCodes, List.filterMap_cons, List.filterMap_append, codeOf, ih,
          List.flatMap_cons, filterMap_codeOf_replicate]

theorem tokLoop_replicate_cons (j : Nat) (d c : Int) (rest : List (Int × Int)) :
    tokLoop (List.replicate j (d, c) ++ rest) (some d) =
      List.replicate j (VKey.code c) ++ tokLoop rest (some d) := by
  induction j with
  | zero => simp
  | succ j ih => simp [List.replicate_succ, tokLoop, ih]

theorem tokLoop_expandK (k : Nat) (hk : k ≠ 0) :
    ∀ (pairs : List (Int × Int)) (cur : Option Int),
      tokLoop (expandK k pairs) cur = expandCodes k (tokLoop pairs cur) := by
  intro pairs
  induction pairs with
  | nil => intro cur; simp [expandK, tokLoop, expandCodes]
  | cons pr rest ih =>
      intro cur
      obtain ⟨d, c⟩ := pr
      obtain ⟨j, rfl⟩ : ∃ j, k = j + 1 := ⟨k - 1, by omega⟩
      have hexp : expandK (j + 1) ((d, c) :: rest) =
          (d, c) :: (List.replicate j (d, c) ++ expandK (j + 1) rest) := by
        simp [expandK, List.flatMap_cons, List.replicate_succ]
      rw [hexp]
      show (if cur = some d then [] else (if cur = none then [] else [VKey.sep]) ++ [VKey.day])
            ++ VKey.code c :: tokLoop (List.replicate j (d, c) ++ expandK (j + 1) rest) (some d) =
          expandCodes (j + 1)
            ((if cur = some d then [] else (if cur = none then [] else [VKey.sep]) ++ [VKey.day])
              ++ VKey.code c :: tokLoop rest (some d))
      rw [tokLoop_replicate_cons j d c (expandK (j + 1) rest), ih (some d),
        expandCodes_append]
      have hpre : expandCodes (j + 1)
          (if cur = some d then [] else (if cur = none then [] else [VKey.sep]) ++ [VKey.day]) =
          (if cur = some d then [] else (if cur = none then [] else [VKey.sep]) ++ [VKey.day]) := by
        split
        · rfl
        · split <;> rfl
      rw [hpre]
      simp [expandCodes, List.replicate_succ]

theorem tokenize_strings_expandK (k : Nat) (hk : k ≠ 0) (pairs : List (Int × Int)) :
    tokenize_strings (expandK k pairs) = expandCodes k (tokenize_strings pairs) := by
  rw [tokenize_strings, tokenize_strings, tokLoop_expandK k hk pairs none]
  rfl

theorem calc_filter_eq (starts : List (Int × Int)) (mace : List (Int × Option Int)) (p : Int)
    (hnd : (mace.map Prod.fst).Nodup) :
    (calculate_mace_outcomes starts mace).filter (fun m => decide (m.1 = p)) =
      (starts.filter fun s => decide (s.1 = p)).map
        fun s => (s.1, maceLabel s.2 ((findOutcome mace s.1).getD none)) := by
  rw [calculate_mace_outcomes_char starts mace hnd, List.filter_map]
  rfl

theorem groupRows_flatMap (data : List EventRow) (starts : List (Int × Int))
    (mace : List (Int × Option Int)) (p : Int) :
    groupRows (mergedOf data starts mace) p =
      ((sortEvents data).filter fun r => decide (r.person_id = p)).flatMap
        (joinRow (calculate_mace_outcomes starts mace)) := by
  rw [groupRows, mergedOf, List.filter_flatMap]
  have key : ∀ l : List EventRow,
      (l.flatMap fun r => (joinRow (calculate_mace_outcomes starts mace) r).filter
        fun rl => decide (rl.1.person_id = p)) =
      (l.filter fun r => decide (r.person_id = p)).flatMap
        (joinRow (calculate_mace_outcomes starts mace)) := by
    intro l
    induction l with
    | nil => rfl
    | cons a t ih =>
        by_cases h : a.person_id = p
        · have h1 : (joinRow (calculate_mace_outcomes starts mace) a).filter
              (fun rl => decide (rl.1.person_id = p)) =
              joinRow (calculate_mace_outcomes starts mace) a :=
            List.filter_eq_self.mpr fun rl hrl => by simp [joinRow_fst hrl, h]
          simp [List.flatMap_cons, List.filter_cons, h, h1, ih]
        · have h1 : (joinRow (calculate_mace_outcomes starts mace) a).filter
              (fun rl => decide (rl.1.person_id = p)) = [] :=
            List.filter_eq_nil_iff.mpr fun rl hrl => by simp [joinRow_fst hrl, h]
          simp [List.flatMap_cons, List.filter_cons, h, h1, ih]
  exact key (sortEvents data)

theorem joinRow_of_ne_nil {labels : List (Int × Int)} {r : EventRow}
    (hne : labels.filter (fun m => decide (m.1 = r.person_id)) ≠ []) :
    joinRow labels r =
      (labels.filter fun m => decide (m.1 = r.person_id)).map fun m => (r, some m.2) := by
  rw [joinRow]
  rw [if_neg fun h => hne (List.isEmpty_iff.mp h)]

theorem flatMap_congr_mem {α β : Type*} {l : List α} {f g : α → List β}
    (h : ∀ a ∈ l, f a = g a) : l.flatMap f = l.flatMap g := by
  induction l with
  | nil => rfl
  | cons a t ih =>
      rw [List.flatMap_cons, List.flatMap_cons, h a (by simp),
        ih fun x hx => h x (List.mem_cons_of_mem _ hx)]

theorem zip_flatMap_replicate (k : Nat) (l : List EventRow) :
    ((l.flatMap fun r => List.replicate k r.event_date).zip
      (l.flatMap fun r => List.replicate k r.concept_id)) =
      expandK k (l.map fun r => (r.event_date, r.concept_id)) := by
  induction l with
  | nil => rfl
  | cons a t ih =>
      simp only [expandK, List.map_cons, List.flatMap_cons] at ih ⊢
      rw [List.zip_append (by simp), List.zip_replicate, Nat.min_self, ih]

/-- C10: when a patient `p` has `k > 1` rows in the index-date table (and the
outcome table has one row per patient), the Outcome Labeler emits `k` label
rows for `p`; the Assembler's label join replicates each of `p`'s sorted event
rows `k` consecutive times, so `p`'s grouped code and date arrays are the
`k`-fold consecutive replications of the originals, the untruncated token
stream is the original one with every concept-code token repeated `k`
consecutive times (day-boundary and separator counts unchanged), and the
stored label is the one of the first replicated row — the label computed from
`p`'s first index-date row. -/
theorem assembler_duplicate_index_rows_spec (data : List EventRow)
    (starts : List (Int × Int)) (mace : List (Int × Option Int)) (p : Int) (k : Nat)
    (hnd : (mace.map Prod.fst).Nodup)
    (hk : (starts.filter fun s => decide (s.1 = p)).length = k)
    (hk1 : 1 < k)
    (hpmem : p ∈ data.map fun r => r.person_id) :
    ((calculate_mace_outcomes starts mace).filter fun m => decide (m.1 = p)).length = k ∧
    groupCodes (mergedOf data starts mace) p =
      ((sortEvents data).filter fun r => decide (r.person_id = p)).flatMap
        (fun r => List.replicate k r.concept_id) ∧
    groupDates (mergedOf data starts mace) p =
      ((sortEvents data).filter fun r => decide (r.person_id = p)).flatMap
        (fun r => List.replicate k r.event_date) ∧
    tokenize_strings ((groupDates (mergedOf data starts mace) p).zip
        (groupCodes (mergedOf data starts mace) p)) =
      expandCodes k (tokenize_strings
        (((sortEvents data).filter fun r => decide (r.person_id = p)).map
          fun r => (r.event_date, r.concept_id))) ∧
    (tokenize_strings ((groupDates (mergedOf data starts mace) p).zip
        (groupCodes (mergedOf data starts mace) p))).count VKey.day =
      (tokenize_strings (((sortEvents data).filter fun r => decide (r.person_id = p)).map
        fun r => (r.event_date, r.concept_id))).count VKey.day ∧
    (tokenize_strings ((groupDates (mergedOf data starts mace) p).zip
        (groupCodes (mergedOf data starts mace) p))).count VKey.sep =
      (tokenize_strings (((sortEvents data).filter fun r => decide (r.person_id = p)).map
        fun r => (r.event_date, r.concept_id))).count VKey.sep ∧
    (tokenize_strings ((groupDates (mergedOf data starts mace) p).zip
        (groupCodes (mergedOf data starts mace) p))).filterMap codeOf =
      ((((sortEvents data).filter fun r => decide (r.person_id = p)).map
        fun r => (r.event_date, r.concept_id)).map Prod.snd).flatMap
        (fun c => List.replicate k c) ∧
    groupLabel (mergedOf data starts mace) p =
      ((starts.filter fun s => decide (s.1 = p)).head?).map
        fun s => maceLabel s.2 ((findOutcome mace s.1).getD none) := by
  have hk0 : k ≠ 0 := by omega
  have hlab := calc_filter_eq starts mace p hnd
  have h1 : ((calculate_mace_outcomes starts mace).filter
      fun m => decide (m.1 = p)).length = k := by
    rw [hlab, List.length_map, hk]
  have hlabne : (calculate_mace_outcomes starts mace).filter
      (fun m => decide (m.1 = p)) ≠ [] := by
    intro h
    rw [h] at h1
    exact hk0 h1.symm
  have hjoin : ∀ r ∈ (sortEvents data).filter fun r => decide (r.person_id = p),
      joinRow (calculate_mace_outcomes starts mace) r =
        ((calculate_mace_outcomes starts mace).filter fun m => decide (m.1 = p)).map
          fun m => (r, some m.2) := by
    intro r hr
    have hrp : r.person_id = p := by simpa using List.of_mem_filter hr
    have hpred : (calculate_mace_outcomes starts mace).filter
        (fun m => decide (m.1 = r.person_id)) =
        (calculate_mace_outcomes starts mace).filter fun m => decide (m.1 = p) := by
      rw [hrp]
    rw [joinRow_of_ne_nil (by rw [hpred]; exact hlabne), hpred]
  have hcodes : groupCodes (mergedOf data starts mace) p =
      ((sortEvents data).filter fun r => decide (r.person_id = p)).flatMap
        fun r => List.replicate k r.concept_id := by
    rw [groupCodes, groupRows_flatMap, List.map_flatMap]
    refine flatMap_congr_mem fun r hr => ?_
    rw [hjoin r hr, List.map_map]
    rw [show ((fun rl : EventRow × Option Int => rl.1.concept_id) ∘
        fun m : Int × Int => (r, some m.2)) = fun _ => r.concept_id from rfl]
    rw [List.map_const' _ r.concept_id, h1]
  have hdates : groupDates (mergedOf data starts mace) p =
      ((sortEvents data).filter fun r => decide (r.person_id = p)).flatMap
        fun r => List.replicate k r.event_date := by
    rw [groupDates, groupRows_flatMap, List.map_flatMap]
    refine flatMap_congr_mem fun r hr => ?_
    rw [hjoin r hr, List.map_map]
    rw [show ((fun rl : EventRow × Option Int => rl.1.event_date) ∘
        fun m : Int × Int => (r, some m.2)) = fun _ => r.event_date from rfl]
    rw [List.map_const' _ r.event_date, h1]
  have hztok : tokenize_strings ((groupDates (mergedOf data starts mace) p).zip
      (groupCodes (mergedOf data starts mace) p)) =
      expandCodes k (tokenize_strings
        (((sortEvents data).filter fun r => decide (r.person_id = p)).map
          fun r => (r.event_date, r.concept_id))) := by
    rw [hcodes, hdates, zip_flatMap_replicate, tokenize_strings_expandK k hk0]
  have hspne : (sortEvents data).filter (fun r => decide (r.person_id = p)) ≠ [] := by
    obtain ⟨r, hr, hrp⟩ := List.mem_map.mp hpmem
    exact List.ne_nil_of_mem (List.mem_filter.mpr
      ⟨(List.perm_insertionSort eventLE data).mem_iff.mpr hr, by simp [hrp]⟩)
  refine ⟨h1, hcodes, hdates, hztok, ?_, ?_, ?_, ?_⟩
  · rw [hztok, expandCodes_count_day]
  · rw [hztok, expandCodes_count_sep]
  · rw [hztok, expandCodes_filterMap, tokenize_strings_filterMap]
  · rw [groupLabel, groupRows_flatMap]
    cases hsp : (sortEvents data).filter fun r => decide (r.person_id = p) with
    | nil => exact absurd hsp hspne
    | cons r₁ rest =>
        rw [List.flatMap_cons, hjoin r₁ (by rw [hsp]; exact List.mem_cons_self r₁ rest)]
        cases hlp : (calculate_mace_outcomes starts mace).filter
            (fun m => decide (m.1 = p)) with
        | nil => exact absurd hlp hlabne
        | cons m t =>
            have hsh : ((starts.filter fun s => decide (s.1 = p)).map
                (fun s => (s.1, maceLabel s.2 ((findOutcome mace s.1).getD none)))).head? =
                some m := by
              rw [← hlab, hlp]
              rfl
            rw [List.head?_map] at hsh
            cases hs : (starts.filter fun s => decide (s.1 = p)).head? with
            | none => rw [hs] at hsh; exact absurd hsh (by simp)
            | some s =>
                rw [hs] at hsh
                have hm : (s.1, maceLabel s.2 ((findOutcome mace s.1).getD none)) = m := by
                  simpa using hsh
                rw [List.map_cons, List.cons_append, List.head?_cons, ← hm]
                rfl

/-- Witness for C10: patient 1 has two index-date rows and two events; its
grouped codes come out as `[10, 10, 20, 20]` (each event row twice,
consecutively) and the stored label is the one of the first index-date row. -/
theorem assembler_duplicate_index_rows_spec_witness :
    ((([] : List (Int × Option Int)).map Prod.fst).Nodup) ∧
    (([((1 : Int), (0 : Int)), (1, 50)].filter fun s => decide (s.1 = 1)).length = 2) ∧
    ((1 : Nat) < 2) ∧
    ((1 : Int) ∈ ([⟨1, 10, 0⟩, ⟨1, 20, 1⟩] : List EventRow).map fun r => r.person_id) ∧
    groupCodes (mergedOf [⟨1, 10, 0⟩, ⟨1, 20, 1⟩] [((1 : Int), (0 : Int)), (1, 50)] []) 1 =
      ((sortEvents [⟨1, 10, 0⟩, ⟨1, 20, 1⟩]).filter fun r =>
        decide (r.person_id = 1)).flatMap (fun r => List.replicate 2 r.concept_id) ∧
    groupCodes (mergedOf [⟨1, 10, 0⟩, ⟨1, 20, 1⟩] [((1 : Int), (0 : Int)), (1, 50)] []) 1 =
      [10, 10, 20, 20] ∧
    groupLabel (mergedOf [⟨1, 10, 0⟩, ⟨1, 20, 1⟩] [((1 : Int), (0 : Int)), (1, 50)] []) 1 =
      some 0 := by
  have h := assembler_duplicate_index_rows_spec [⟨1, 10, 0⟩, ⟨1, 20, 1⟩]
    [((1 : Int), (0 : Int)), (1, 50)] [] 1 2 (by decide) (by decide) (by decide) (by decide)
  exact ⟨by decide, by decide, by decide, by decide, h.2.1, by decide, by decide⟩
